import Mathlib

/-!
Verification development for the ProjectPlanner repository (a Gantt-chart
cutover planning tool).  The definitions below are a shallow embedding of
the TypeScript source:

* the `Task` data model (`src/types.ts`),
* the view-model builder `processedTasks` (the filter / children-map /
  roots / recursive-flatten computation in the main app component),
* the cascade-delete descendant collection (`deleteTask` in the app
  component),
* the REST-backed store mutations (`src/services/store.ts`) as pure
  state-transition functions parameterised by the backend outcome,
* the JSON snapshot export / import logic
  (`src/components/VersionControlModal.tsx`) at the JSON-value level.

JavaScript-specific behaviour is modelled faithfully: truthiness tests on
numbers (`if (t.parentId)`, `!t.parentId`, `if (id)`) treat `0` like an
absent value, `Array.prototype.sort` is modelled by a stable insertion
sort, and the unbounded recursions of the source are modelled with an
explicit fuel parameter (`none` = the recursion would still be running).
-/

namespace ProjectPlanner

/-- `TaskType` from `src/types.ts`: 'prep' | 'cutover' | 'upstream' |
'downstream' | 'milestone'. -/
inductive TaskType where
  | prep
  | cutover
  | upstream
  | downstream
  | milestone
deriving DecidableEq, Repr

/-- Task status from `src/types.ts`: 'todo' | 'in-progress' | 'done'. -/
inductive TaskStatus where
  | todo
  | inProgress
  | done
deriving DecidableEq, Repr

/-- The `Task` interface from `src/types.ts`.  `startDate`/`endDate`
stand for the `start`/`end` fields (YYYY-MM-DD strings; `end` is a Lean
keyword).  Optional fields use `Option`; the optional `isExpanded?:
boolean` is modelled as `Bool` because every truthiness test in the
source treats `undefined` exactly like `false`. -/
structure Task where
  id : Int
  name : String
  startDate : String
  endDate : String
  type : TaskType
  status : TaskStatus
  owner : String
  dependencies : List Int
  order : Int
  parentId : Option Int
  isExpanded : Bool
deriving DecidableEq, Repr

/-- JavaScript truthiness of the optional numeric `parentId` field:
`undefined` and `0` are falsy. -/
def optTruthy : Option Int → Bool
  | none => false
  | some v => v != 0

/-- The filter state of the app component: `{ type, owner, status }`,
where each field is `'all'` (modelled as `none`) or a concrete value. -/
structure Filters where
  type : Option TaskType
  owner : Option String
  status : Option TaskStatus
deriving DecidableEq, Repr

/-- Sort keys offered by the UI (`sortConfig.key`). -/
inductive SortKey where
  | order
  | start
  | stop
  | name
deriving DecidableEq, Repr

/-- Sort direction (`sortConfig.direction`). -/
inductive SortDir where
  | asc
  | desc
deriving DecidableEq, Repr

/-- `sortConfig` state of the app component. -/
structure SortConfig where
  key : SortKey
  direction : SortDir
deriving DecidableEq, Repr

/-- One entry of the flattened view-model (`RenderTask` in the app
component): the task spread together with its indentation `level` and
the `hasChildren` flag. -/
structure RenderTask where
  task : Task
  level : Nat
  hasChildren : Bool
deriving DecidableEq, Repr

/-! ### Date parsing (`new Date(str).getTime()` for YYYY-MM-DD strings)

The sort comparator parses `start`/`end` fields with `new Date(...)`.
For strings in the strict `YYYY-MM-DD` format this yields the UTC
epoch-millisecond value; anything else yields `NaN` (modelled as
`none`), and every `<` / `>` comparison against `NaN` is false. -/

/-- Digit test for the date parser. -/
def charDigit (c : Char) : Option Int :=
  if c.isDigit then some (Int.ofNat (c.toNat - '0'.toNat)) else none

/-- Gregorian leap-year test. -/
def isLeap (y : Int) : Bool :=
  y % 4 == 0 && (y % 100 != 0 || y % 400 == 0)

/-- Number of days of month `m` in year `y`. -/
def daysInMonth (y m : Int) : Int :=
  if m == 2 then (if isLeap y then 29 else 28)
  else if m == 4 || m == 6 || m == 9 || m == 11 then 30
  else 31

/-- Days from the Unix epoch to the civil date `y-m-d` (Howard Hinnant's
`days_from_civil` algorithm, with floor division). -/
def daysFromCivil (y m d : Int) : Int :=
  let y2 : Int := if m ≤ 2 then y - 1 else y
  let era : Int := Int.fdiv y2 400
  let yoe : Int := y2 - era * 400
  let mp : Int := (m + 9) % 12
  let doy : Int := Int.fdiv (153 * mp + 2) 5 + d - 1
  let doe : Int := yoe * 365 + Int.fdiv yoe 4 - Int.fdiv yoe 100 + doy
  era * 146097 + doe - 719468

/-- `new Date(s).getTime()` for a date-only string: `some` epoch
milliseconds when `s` is a valid `YYYY-MM-DD` date, `none` (= `NaN`)
otherwise. -/
def getTime (s : String) : Option Int :=
  match s.toList with
  | [y1, y2, y3, y4, h1, m1, m2, h2, d1, d2] =>
    if h1 = '-' ∧ h2 = '-' then
      match charDigit y1, charDigit y2, charDigit y3, charDigit y4,
            charDigit m1, charDigit m2, charDigit d1, charDigit d2 with
      | some a, some b, some c, some d, some e, some f, some g, some h =>
        let yv : Int := a * 1000 + b * 100 + c * 10 + d
        let mv : Int := e * 10 + f
        let dv : Int := g * 10 + h
        if 1 ≤ mv ∧ mv ≤ 12 ∧ 1 ≤ dv ∧ dv ≤ daysInMonth yv mv then
          some (daysFromCivil yv mv dv * 86400000)
        else none
      | _, _, _, _, _, _, _, _ => none
    else none
  | _ => none

/-! ### The sort comparator (`sortFn` in the app component) -/

/-- Three-way comparison of two optional numbers with JavaScript `NaN`
semantics: any comparison involving `NaN` (`none`) is false, so the
comparator returns `0`. -/
def cmpNum (a b : Option Int) : Int :=
  match a, b with
  | some x, some y => if x < y then -1 else if y < x then 1 else 0
  | _, _ => 0

/-- Three-way comparison of strings (JavaScript `<` / `>` on strings,
lexicographic). -/
def cmpStr (a b : String) : Int :=
  if a < b then -1 else if b < a then 1 else 0

/-- `sortFn` from the app component: compare the configured key; date
keys go through `new Date(...).getTime()`; the direction flips the
result sign; ties return `0` either way. -/
def sortFn (cfg : SortConfig) (a b : Task) : Int :=
  let raw : Int :=
    match cfg.key with
    | SortKey.order => cmpNum (some a.order) (some b.order)
    | SortKey.start => cmpNum (getTime a.startDate) (getTime b.startDate)
    | SortKey.stop => cmpNum (getTime a.endDate) (getTime b.endDate)
    | SortKey.name => cmpStr a.name b.name
  match cfg.direction with
  | SortDir.asc => raw
  | SortDir.desc => -raw

/-- Insert a task into an already sorted list, before the first element
it compares `≤ 0` against.  Together with `sortTasks` this is the
standard stable insertion sort, a faithful model of the (spec-mandated
stable) `Array.prototype.sort`. -/
def sortInsert (cfg : SortConfig) (a : Task) : List Task → List Task
  | [] => [a]
  | b :: l => if sortFn cfg a b ≤ 0 then a :: b :: l else b :: sortInsert cfg a l

/-- Stable sort of a task list by `sortFn` (models
`taskList.sort(sortFn)`). -/
def sortTasks (cfg : SortConfig) : List Task → List Task
  | [] => []
  | a :: l => sortInsert cfg a (sortTasks cfg l)

/-! ### Filtering, children map, roots (steps 1-3 of the view-model) -/

/-- Step 1 of `processedTasks`: the three independent filters; each is a
no-op when set to `'all'` (`none`). -/
def filterTasks (fl : Filters) (tasks : List Task) : List Task :=
  let r1 := match fl.type with
    | none => tasks
    | some ty => tasks.filter (fun t => t.type == ty)
  let r2 := match fl.owner with
    | none => r1
    | some ow => r1.filter (fun t => t.owner == ow)
  match fl.status with
  | none => r2
  | some st => r2.filter (fun t => t.status == st)

/-- The children list stored under key `k` of the `childrenMap`: the
map is built by pushing each task of the filtered collection under its
`parentId` key, guarded by `if (t.parentId)` — so a task whose
`parentId` is absent or `0` is never registered as a child. -/
def childrenOf (res : List Task) (k : Int) : List Task :=
  res.filter (fun t => optTruthy t.parentId && t.parentId == some k)

/-- `childrenMap.has(t.id)`: the key exists iff some task was pushed
under it. -/
def hasChildrenB (res : List Task) (t : Task) : Bool :=
  !(childrenOf res t.id).isEmpty

/-- Root test from the app component:
`!t.parentId || !existingIds.has(t.parentId)` — a task is a traversal
root when its `parentId` is falsy (absent or `0`) or does not occur
among the ids of the filtered collection. -/
def isRootB (res : List Task) (t : Task) : Bool :=
  !optTruthy t.parentId || !(res.map Task.id).contains ((t.parentId).getD 0)

/-- The `roots` list of the app component. -/
def rootsOf (res : List Task) : List Task :=
  res.filter (fun t => isRootB res t)

/-! ### Recursive flattening (`processLevel`) with explicit fuel

The source recursion has no termination guard; `fuel` bounds the
recursion depth (each descent into a children list consumes one unit).
`none` means the bound was hit, i.e. the source recursion would still
be running at that depth. -/

/-- The `forEach` body of `processLevel`, operating on an
already-sorted task list: emit each task at the current `level` with
its `hasChildren` flag, and when the task both has children and is
expanded, descend into its (sorted) children list at `level + 1`. -/
def procItems (res : List Task) (cfg : SortConfig) :
    Nat → List Task → Nat → Option (List RenderTask)
  | _, [], _ => some []
  | fuel, t :: rest, level =>
    let hc := hasChildrenB res t
    if hc && t.isExpanded then
      match fuel with
      | 0 => none
      | Nat.succ fuel2 =>
        match procItems res cfg fuel2 (sortTasks cfg (childrenOf res t.id)) (level + 1) with
        | none => none
        | some sub =>
          match procItems res cfg (Nat.succ fuel2) rest level with
          | none => none
          | some tail => some (RenderTask.mk t level hc :: sub ++ tail)
    else
      match procItems res cfg fuel rest level with
      | none => none
      | some tail => some (RenderTask.mk t level hc :: tail)
termination_by fuel l _ => (fuel, l.length)

/-- `processLevel` of the app component: sort the incoming list with
the active comparator, then run the per-item loop. -/
def processLevel (res : List Task) (cfg : SortConfig) (fuel : Nat)
    (taskList : List Task) (level : Nat) : Option (List RenderTask) :=
  procItems res cfg fuel (sortTasks cfg taskList) level

/-- The `processedTasks` view-model computation of the app component:
filter, build the children map and roots over the filtered collection,
then recursively flatten starting from the roots at level 0. -/
def processedTasks (tasks : List Task) (fl : Filters) (cfg : SortConfig)
    (fuel : Nat) : Option (List RenderTask) :=
  let res := filterTasks fl tasks
  processLevel res cfg fuel (rootsOf res) 0

/-! ### The default plan (`INITIAL_TASKS` from `src/types.ts`) -/

/-- The built-in 10-task default plan. -/
def INITIAL_TASKS : List Task :=
  [ Task.mk 1 "预切换准备与演练" "2025-03-17" "2025-03-23" TaskType.prep TaskStatus.done "PMO" [] 0 none true,
    Task.mk 2 "数据冻结与系统停机" "2025-03-24" "2025-03-24" TaskType.cutover TaskStatus.todo "运维组" [1] 1 none true,
    Task.mk 3 "上游系统接入 (第一周: ERP/HR)" "2025-03-24" "2025-03-30" TaskType.upstream TaskStatus.todo "上游开发组" [2] 2 none true,
    Task.mk 4 "上游系统接入 (第二周: CRM/外部数据)" "2025-03-31" "2025-04-06" TaskType.upstream TaskStatus.todo "上游开发组" [3] 3 none true,
    Task.mk 5 "MDM 生产环境核心上线 (Go-Live)" "2025-03-31" "2025-03-31" TaskType.milestone TaskStatus.todo "MDM团队" [4] 4 none true,
    Task.mk 6 "下游接入 Batch 1: 财务报表系统" "2025-03-31" "2025-04-06" TaskType.downstream TaskStatus.todo "下游组A" [5] 5 none true,
    Task.mk 7 "下游接入 Batch 2: 营销分析平台" "2025-04-07" "2025-04-13" TaskType.downstream TaskStatus.todo "下游组B" [6] 6 none true,
    Task.mk 8 "下游接入 Batch 3: 供应链执行系统" "2025-04-14" "2025-04-20" TaskType.downstream TaskStatus.todo "下游组C" [7] 7 none true,
    Task.mk 9 "下游接入 Batch 4: 历史归档与全渠道同步" "2025-04-21" "2025-04-27" TaskType.downstream TaskStatus.todo "下游组D" [8] 8 none true,
    Task.mk 10 "上线后保障与项目收尾" "2025-04-28" "2025-05-04" TaskType.prep TaskStatus.todo "全组" [9] 9 none true ]

/-! ### The REST-backed store (`src/services/store.ts`)

Each mutation awaits one backend call and only then touches the
in-memory `currentTasks` and notifies subscribers; the whole body sits
in a `try/catch` whose catch arm only logs.  The functions below are
the store operations as pure state transitions, parameterised by the
outcome of the backend request (`Except` models the awaited promise:
`.error` = the request threw).  Besides the new task list they record
the backend requests issued and the snapshots passed to `notify()`. -/

/-- A request issued to `dataService`. -/
inductive BackendReq where
  | getTasks
  | saveTask (t : Task)
  | deleteTask (id : Int)
  | syncTasks (ts : List Task)
  | resetData
deriving DecidableEq, Repr

/-- Result of running one store operation: the in-memory task list
afterwards, the backend requests issued, and the snapshots handed to
subscribers (one entry per `notify()` call). -/
structure StoreEff where
  tasks : List Task
  requests : List BackendReq
  notified : List (List Task)
deriving DecidableEq, Repr

/-- `store.addTask`: save to the backend; on success adopt a truthy
returned id (`if (id) task.id = id`), push, notify.  On error: log
only. -/
def runAddTask (outcome : Except String (Option Int)) (task : Task)
    (cur : List Task) : StoreEff :=
  match outcome with
  | Except.error _ => StoreEff.mk cur [BackendReq.saveTask task] []
  | Except.ok ret =>
    let task2 := match ret with
      | some i => if i != 0 then { task with id := i } else task
      | none => task
    StoreEff.mk (cur ++ [task2]) [BackendReq.saveTask task] [cur ++ [task2]]

/-- `store.updateTask`: save to the backend; on success replace the
task at the index found by id (`findIndex`); when no index matches,
neither the list nor the subscribers are touched.  On error: log
only. -/
def runUpdateTask (outcome : Except String Unit) (task : Task)
    (cur : List Task) : StoreEff :=
  match outcome with
  | Except.error _ => StoreEff.mk cur [BackendReq.saveTask task] []
  | Except.ok _ =>
    match cur.findIdx? (fun t => t.id == task.id) with
    | some i => StoreEff.mk (cur.set i task) [BackendReq.saveTask task] [cur.set i task]
    | none => StoreEff.mk cur [BackendReq.saveTask task] []

/-- `store.deleteTask`: delete on the backend; on success drop the task
from the list and notify.  On error: log only. -/
def runDeleteTask (outcome : Except String Unit) (id : Int)
    (cur : List Task) : StoreEff :=
  match outcome with
  | Except.error _ => StoreEff.mk cur [BackendReq.deleteTask id] []
  | Except.ok _ =>
    StoreEff.mk (cur.filter (fun t => t.id != id)) [BackendReq.deleteTask id]
      [cur.filter (fun t => t.id != id)]

/-- `store.replaceAllTasks`: bulk-sync to the backend; on success adopt
the new list and notify.  On error: log only. -/
def runReplaceAllTasks (outcome : Except String Unit) (ts : List Task)
    (cur : List Task) : StoreEff :=
  match outcome with
  | Except.error _ => StoreEff.mk cur [BackendReq.syncTasks ts] []
  | Except.ok _ => StoreEff.mk ts [BackendReq.syncTasks ts] [ts]

/-- The initial load performed by `store.subscribe`: fetch all tasks;
an empty result is replaced by `INITIAL_TASKS` (which are then synced
back to the backend once); a failed fetch also falls back to
`INITIAL_TASKS`.  Either way `notify()` fires exactly once. -/
def runSubscribeInit (outcome : Except String (List Task)) : StoreEff :=
  match outcome with
  | Except.error _ => StoreEff.mk INITIAL_TASKS [BackendReq.getTasks] [INITIAL_TASKS]
  | Except.ok ts =>
    if ts.length > 0 then StoreEff.mk ts [BackendReq.getTasks] [ts]
    else StoreEff.mk INITIAL_TASKS [BackendReq.getTasks, BackendReq.syncTasks INITIAL_TASKS]
      [INITIAL_TASKS]

/-! ### Cascade delete (`deleteTask` in the app component)

`collect` adds the target id to the set and recurses into every task
whose `parentId === taskId` (strict equality, no truthiness here and no
visited-guard), then the store deletes every collected id.  The
recursion is modelled with depth fuel, the JS `Set` (insertion order)
as a duplicate-free list. -/

mutual

/-- One `collect(taskId)` call: add `taskId` to the accumulated set,
then recurse into the children (`tasks.filter(t => t.parentId ===
taskId)`) one level deeper. -/
def collect (tasks : List Task) : Nat → Int → List Int → Option (List Int)
  | 0, _, _ => none
  | Nat.succ fuel, taskId, acc =>
    collectKids tasks fuel (tasks.filter (fun t => t.parentId == some taskId))
      (if acc.contains taskId then acc else acc ++ [taskId])
termination_by fuel _ _ => (fuel, 0)

/-- The `forEach` over the children of the task being collected: each
child is collected one level deeper (with the remaining depth
budget). -/
def collectKids (tasks : List Task) : Nat → List Task → List Int → Option (List Int)
  | _, [], acc => some acc
  | fuel, c :: cs, acc =>
    match collect tasks fuel c.id acc with
    | none => none
    | some acc2 => collectKids tasks fuel cs acc2
termination_by fuel kids _ => (fuel, kids.length + 1)

end

/-- The id set collected by `deleteTask(id)` (before the store
deletions), `none` when the walk would recurse forever. -/
def deleteCascadeIds (tasks : List Task) (fuel : Nat) (id : Int) : Option (List Int) :=
  collect tasks fuel id []

/-- The task collection after the store deleted every collected id
(`for (const tid of idsToDelete) store.deleteTask(tid)`, all
successful). -/
def applyCascadeDelete (tasks : List Task) (ids : List Int) : List Task :=
  tasks.filter (fun t => !ids.contains t.id)

/-! ### JSON snapshot export / import (`VersionControlModal.tsx`)

Modelled at the JSON-value level: `JSON.stringify`/`JSON.parse` are the
identity on this AST (the string layer round-trips it exactly), so
`handleExportJSON` produces the JSON array of encoded tasks and
`handleFileChange` consumes a parsed JSON value.  `JSON.stringify`
omits `undefined` properties, so an absent `parentId` produces no
field. -/

/-- A parsed JSON value (numbers restricted to the integers, which is
all the task fields use). -/
inductive Json where
  | null
  | bool (b : Bool)
  | num (n : Int)
  | str (s : String)
  | arr (items : List Json)
  | obj (fields : List (String × Json))

/-- Property access `j[k]` on a parsed JSON value. -/
def jGet (j : Json) (k : String) : Option Json :=
  match j with
  | Json.obj fs => (fs.find? (fun p => p.fst == k)).map Prod.snd
  | _ => none

/-- JavaScript truthiness of an accessed property (absent property =
`undefined` = falsy; `0`, `""`, `null`, `false` falsy; arrays and
objects truthy). -/
def jTruthy : Option Json → Bool
  | none => false
  | some Json.null => false
  | some (Json.bool b) => b
  | some (Json.num n) => n != 0
  | some (Json.str s) => s != ""
  | some (Json.arr _) => true
  | some (Json.obj _) => true

/-- The `type` field's string representation. -/
def typeString : TaskType → String
  | TaskType.prep => "prep"
  | TaskType.cutover => "cutover"
  | TaskType.upstream => "upstream"
  | TaskType.downstream => "downstream"
  | TaskType.milestone => "milestone"

/-- Parse a `type` string. -/
def typeOfString (s : String) : Option TaskType :=
  if s == "prep" then some TaskType.prep
  else if s == "cutover" then some TaskType.cutover
  else if s == "upstream" then some TaskType.upstream
  else if s == "downstream" then some TaskType.downstream
  else if s == "milestone" then some TaskType.milestone
  else none

/-- The `status` field's string representation. -/
def statusString : TaskStatus → String
  | TaskStatus.todo => "todo"
  | TaskStatus.inProgress => "in-progress"
  | TaskStatus.done => "done"

/-- Parse a `status` string. -/
def statusOfString (s : String) : Option TaskStatus :=
  if s == "todo" then some TaskStatus.todo
  else if s == "in-progress" then some TaskStatus.inProgress
  else if s == "done" then some TaskStatus.done
  else none

/-- `JSON.stringify` of one task, as a JSON value (an absent `parentId`
yields no field). -/
def encodeTask (t : Task) : Json :=
  Json.obj
    ([ ("id", Json.num t.id),
       ("name", Json.str t.name),
       ("start", Json.str t.startDate),
       ("end", Json.str t.endDate),
       ("type", Json.str (typeString t.type)),
       ("status", Json.str (statusString t.status)),
       ("owner", Json.str t.owner),
       ("dependencies", Json.arr (t.dependencies.map Json.num)),
       ("order", Json.num t.order) ]
     ++ (match t.parentId with
         | some p => [("parentId", Json.num p)]
         | none => [])
     ++ [("isExpanded", Json.bool t.isExpanded)])

/-- Read a task object back from JSON (the shape the import path hands
to `replaceAllTasks`; an absent `isExpanded` behaves as `false` under
truthiness, an absent `parentId` as `none`). -/
def decodeTask (j : Json) : Option Task :=
  match jGet j "id", jGet j "name", jGet j "start", jGet j "end",
        jGet j "type", jGet j "status", jGet j "owner",
        jGet j "dependencies", jGet j "order" with
  | some (Json.num i), some (Json.str nm), some (Json.str st),
    some (Json.str en), some (Json.str ty), some (Json.str sta),
    some (Json.str ow), some (Json.arr deps), some (Json.num ord) =>
    match typeOfString ty, statusOfString sta,
          deps.mapM (fun d => match d with | Json.num n => some n | _ => none) with
    | some ty2, some sta2, some deps2 =>
      let pid := match jGet j "parentId" with
        | some (Json.num p) => some p
        | _ => none
      let exp := match jGet j "isExpanded" with
        | some (Json.bool b) => b
        | _ => false
      some (Task.mk i nm st en ty2 sta2 ow deps2 ord pid exp)
    | _, _, _ => none
  | _, _, _, _, _, _, _, _, _ => none

/-- `handleExportJSON`: `JSON.stringify(currentTasks)` as a JSON
value. -/
def handleExportJSON (tasks : List Task) : Json :=
  Json.arr (tasks.map encodeTask)

/-- `handleFileChange` after `JSON.parse` succeeded: accept the value
only when it is an array, non-empty, and its first element has truthy
`id` and `name` fields; then the parsed objects replace the whole
collection.  `none` = the import is rejected with an error toast. -/
def handleImportJSON (j : Json) : Option (List Task) :=
  match j with
  | Json.arr items =>
    match items with
    | [] => none
    | first :: _ =>
      if jTruthy (jGet first "id") && jTruthy (jGet first "name") then
        items.mapM decodeTask
      else none
  | _ => none

/-! ## Theory

### The stable sort -/

theorem sortInsert_perm (cfg : SortConfig) (a : Task) (l : List Task) :
    (sortInsert cfg a l).Perm (a :: l) := by
  induction l with
  | nil => simp [sortInsert]
  | cons b t ih =>
    by_cases h : sortFn cfg a b ≤ 0
    · simp [sortInsert, h]
    · simp only [sortInsert, h, if_false]
      exact (ih.cons b).trans (List.Perm.swap a b t)

theorem sortTasks_perm (cfg : SortConfig) (l : List Task) :
    (sortTasks cfg l).Perm l := by
  induction l with
  | nil => simp [sortTasks]
  | cons a t ih =>
    exact (sortInsert_perm cfg a (sortTasks cfg t)).trans (ih.cons a)

theorem mem_sortTasks {cfg : SortConfig} {l : List Task} {x : Task} :
    x ∈ sortTasks cfg l ↔ x ∈ l :=
  (sortTasks_perm cfg l).mem_iff

theorem sublist_sortInsert (cfg : SortConfig) (a : Task) {l1 l2 : List Task}
    (h : l1.Sublist l2) : l1.Sublist (sortInsert cfg a l2) := by
  induction l2 generalizing l1 with
  | nil =>
    cases h
    simp [sortInsert]
  | cons b t ih =>
    by_cases hle : sortFn cfg a b ≤ 0
    · simpa [sortInsert, hle] using h.cons a
    · simp only [sortInsert, hle, if_false]
      cases h with
      | cons _ h2 => exact (ih h2).cons b
      | cons₂ _ h2 => exact (ih h2).cons₂ b

theorem pair_sublist_sortInsert (cfg : SortConfig) {u v : Task} {l : List Task}
    (hv : v ∈ l) (hle : sortFn cfg u v ≤ 0) :
    [u, v].Sublist (sortInsert cfg u l) := by
  induction l with
  | nil => cases hv
  | cons b t ih =>
    by_cases hb : sortFn cfg u b ≤ 0
    · simp only [sortInsert, hb, if_true]
      exact (List.singleton_sublist.mpr hv).cons₂ u
    · simp only [sortInsert, hb, if_false]
      rcases List.mem_cons.mp hv with hv1 | hv2
      · exact absurd (hv1 ▸ hle) hb
      · exact (ih hv2).cons b

theorem pair_sublist_sortTasks (cfg : SortConfig) {u v : Task} {l : List Task}
    (h : [u, v].Sublist l) (hle : sortFn cfg u v ≤ 0) :
    [u, v].Sublist (sortTasks cfg l) := by
  induction l with
  | nil => cases h
  | cons a t ih =>
    cases h with
    | cons _ h2 => exact sublist_sortInsert cfg a (ih h2)
    | cons₂ _ h2 =>
      exact pair_sublist_sortInsert cfg
        (mem_sortTasks.mpr (List.singleton_sublist.mp h2)) hle

/-! ### Evaluation lemmas for the flattening loop -/

theorem procItems_true_zero {res : List Task} {cfg : SortConfig} {t : Task}
    {rest : List Task} {level : Nat}
    (hbr : (hasChildrenB res t && t.isExpanded) = true) :
    procItems res cfg 0 (t :: rest) level = none := by
  simp [procItems, hbr]

theorem procItems_true_sub_none {res : List Task} {cfg : SortConfig} {t : Task}
    {rest : List Task} {level : Nat} {fuel2 : Nat}
    (hbr : (hasChildrenB res t && t.isExpanded) = true)
    (hsub : procItems res cfg fuel2 (sortTasks cfg (childrenOf res t.id)) (level + 1) = none) :
    procItems res cfg (Nat.succ fuel2) (t :: rest) level = none := by
  simp [procItems, hbr, hsub]

theorem procItems_true_rest_none {res : List Task} {cfg : SortConfig} {t : Task}
    {rest : List Task} {level : Nat} {fuel2 : Nat} {sub : List RenderTask}
    (hbr : (hasChildrenB res t && t.isExpanded) = true)
    (hsub : procItems res cfg fuel2 (sortTasks cfg (childrenOf res t.id)) (level + 1) = some sub)
    (hrest : procItems res cfg (Nat.succ fuel2) rest level = none) :
    procItems res cfg (Nat.succ fuel2) (t :: rest) level = none := by
  simp [procItems, hbr, hsub, hrest]

theorem procItems_true_some {res : List Task} {cfg : SortConfig} {t : Task}
    {rest : List Task} {level : Nat} {fuel2 : Nat} {sub tail : List RenderTask}
    (hbr : (hasChildrenB res t && t.isExpanded) = true)
    (hsub : procItems res cfg fuel2 (sortTasks cfg (childrenOf res t.id)) (level + 1) = some sub)
    (hrest : procItems res cfg (Nat.succ fuel2) rest level = some tail) :
    procItems res cfg (Nat.succ fuel2) (t :: rest) level =
      some (RenderTask.mk t level (hasChildrenB res t) :: sub ++ tail) := by
  simp [procItems, hbr, hsub, hrest]

theorem procItems_false_rest_none {res : List Task} {cfg : SortConfig} {t : Task}
    {rest : List Task} {level : Nat} {fuel : Nat}
    (hbr : ¬(hasChildrenB res t && t.isExpanded) = true)
    (hrest : procItems res cfg fuel rest level = none) :
    procItems res cfg fuel (t :: rest) level = none := by
  cases fuel with
  | zero => simp [procItems, hbr, hrest]
  | succ f => simp [procItems, hbr, hrest]

theorem procItems_false_some {res : List Task} {cfg : SortConfig} {t : Task}
    {rest : List Task} {level : Nat} {fuel : Nat} {tail : List RenderTask}
    (hbr : ¬(hasChildrenB res t && t.isExpanded) = true)
    (hrest : procItems res cfg fuel rest level = some tail) :
    procItems res cfg fuel (t :: rest) level =
      some (RenderTask.mk t level (hasChildrenB res t) :: tail) := by
  cases fuel with
  | zero => simp [procItems, hbr, hrest]
  | succ f => simp [procItems, hbr, hrest]

theorem procItems_emits (res : List Task) (cfg : SortConfig) :
    ∀ (fuel : Nat) (L : List Task) (level : Nat) (out : List RenderTask) (t : Task),
      procItems res cfg fuel L level = some out → t ∈ L →
      RenderTask.mk t level (hasChildrenB res t) ∈ out := by
  intro fuel L level
  induction fuel, L, level using procItems.induct res cfg with
  | case1 fuel level =>
    intro out t h ht
    cases ht
  | case2 t rest level hc hbr =>
    intro out u h hu
    simp [procItems, hbr] at h
  | case3 t rest level hc hbr fuel2 hsub ih =>
    intro out u h hu
    simp [procItems, hbr, hsub] at h
  | case4 t rest level hc hbr fuel2 sub hsub hrest ih1 ih2 =>
    intro out u h hu
    simp [procItems, hbr, hsub, hrest] at h
  | case5 t rest level hc hbr fuel2 sub hsub tail hrest ih1 ih2 =>
    intro out u h hu
    simp only [procItems, hbr, hsub, hrest, if_true] at h
    obtain rfl := Option.some.inj h
    rcases List.mem_cons.mp hu with h1 | h2
    · subst h1
      exact List.mem_cons_self _ _
    · exact List.mem_cons_of_mem _ (List.mem_append_right _ (ih2 tail u hrest h2))
  | case6 fuel t rest level hc hbr hrest ih =>
    intro out u h hu
    have hbr2 : ¬(hasChildrenB res t && t.isExpanded) = true := hbr
    cases fuel with
    | zero => simp [procItems, hbr2, hrest] at h
    | succ f => simp [procItems, hbr2, hrest] at h
  | case7 fuel t rest level hc hbr tail hrest ih =>
    intro out u h hu
    have hbr2 : ¬(hasChildrenB res t && t.isExpanded) = true := hbr
    have h2 : out = RenderTask.mk t level (hasChildrenB res t) :: tail := by
      cases fuel with
      | zero =>
        simp only [procItems, hbr2, if_false, hrest] at h
        exact (Option.some.inj h).symm
      | succ f =>
        simp only [procItems, hbr2, if_false, hrest] at h
        exact (Option.some.inj h).symm
    subst h2
    rcases List.mem_cons.mp hu with h1 | h2
    · subst h1
      exact List.mem_cons_self _ _
    · exact List.mem_cons_of_mem _ (ih tail u hrest h2)

theorem procItems_level_le (res : List Task) (cfg : SortConfig) :
    ∀ (fuel : Nat) (L : List Task) (level : Nat) (out : List RenderTask),
      procItems res cfg fuel L level = some out → ∀ r ∈ out, level ≤ r.level := by
  intro fuel L level
  induction fuel, L, level using procItems.induct res cfg with
  | case1 fuel level =>
    intro out h r hr
    simp only [procItems] at h
    obtain rfl := Option.some.inj h
    cases hr
  | case2 t rest level hc hbr =>
    intro out h r hr
    rw [procItems_true_zero hbr] at h
    cases h
  | case3 t rest level hc hbr fuel2 hsub ih =>
    intro out h r hr
    rw [procItems_true_sub_none hbr hsub] at h
    cases h
  | case4 t rest level hc hbr fuel2 sub hsub hrest ih1 ih2 =>
    intro out h r hr
    rw [procItems_true_rest_none hbr hsub hrest] at h
    cases h
  | case5 t rest level hc hbr fuel2 sub hsub tail hrest ih1 ih2 =>
    intro out h r hr
    rw [procItems_true_some hbr hsub hrest] at h
    obtain rfl := Option.some.inj h
    rcases List.mem_cons.mp hr with h1 | h2
    · subst h1
      exact Nat.le_refl _
    · rcases List.mem_append.mp h2 with h3 | h4
      · exact Nat.le_of_succ_le (ih1 sub hsub r h3)
      · exact ih2 tail hrest r h4
  | case6 fuel t rest level hc hbr hrest ih =>
    intro out h r hr
    rw [procItems_false_rest_none hbr hrest] at h
    cases h
  | case7 fuel t rest level hc hbr tail hrest ih =>
    intro out h r hr
    rw [procItems_false_some hbr hrest] at h
    obtain rfl := Option.some.inj h
    rcases List.mem_cons.mp hr with h1 | h2
    · subst h1
      exact Nat.le_refl _
    · exact ih tail hrest r h2

theorem procItems_rows_at_level (res : List Task) (cfg : SortConfig) :
    ∀ (fuel : Nat) (L : List Task) (level : Nat) (out : List RenderTask),
      procItems res cfg fuel L level = some out →
      out.filter (fun r => r.level == level) =
        L.map (fun t => RenderTask.mk t level (hasChildrenB res t)) := by
  intro fuel L level
  induction fuel, L, level using procItems.induct res cfg with
  | case1 fuel level =>
    intro out h
    simp only [procItems] at h
    obtain rfl := Option.some.inj h
    rfl
  | case2 t rest level hc hbr =>
    intro out h
    rw [procItems_true_zero hbr] at h
    cases h
  | case3 t rest level hc hbr fuel2 hsub ih =>
    intro out h
    rw [procItems_true_sub_none hbr hsub] at h
    cases h
  | case4 t rest level hc hbr fuel2 sub hsub hrest ih1 ih2 =>
    intro out h
    rw [procItems_true_rest_none hbr hsub hrest] at h
    cases h
  | case5 t rest level hc hbr fuel2 sub hsub tail hrest ih1 ih2 =>
    intro out h
    rw [procItems_true_some hbr hsub hrest] at h
    obtain rfl := Option.some.inj h
    have hsubnil : sub.filter (fun r => r.level == level) = [] := by
      rw [List.filter_eq_nil_iff]
      intro r hr
      have h1 : level + 1 ≤ r.level := procItems_level_le res cfg _ _ _ _ hsub r hr
      simp only [beq_iff_eq]
      omega
    simp only [List.filter_cons, List.filter_append, hsubnil, beq_self_eq_true, if_true,
      List.nil_append, ih2 tail hrest, List.map_cons, List.singleton_append]
  | case6 fuel t rest level hc hbr hrest ih =>
    intro out h
    rw [procItems_false_rest_none hbr hrest] at h
    cases h
  | case7 fuel t rest level hc hbr tail hrest ih =>
    intro out h
    rw [procItems_false_some hbr hrest] at h
    obtain rfl := Option.some.inj h
    simp only [List.filter_cons, beq_self_eq_true, if_true, ih tail hrest, List.map_cons]

theorem procItems_mono (res : List Task) (cfg : SortConfig) :
    ∀ (fuel : Nat) (L : List Task) (level : Nat) (out : List RenderTask),
      procItems res cfg fuel L level = some out →
      ∀ fuelB : Nat, fuel ≤ fuelB → procItems res cfg fuelB L level = some out := by
  intro fuel L level
  induction fuel, L, level using procItems.induct res cfg with
  | case1 fuel level =>
    intro out h fuelB hle
    simp only [procItems] at h ⊢
    exact h
  | case2 t rest level hc hbr =>
    intro out h fuelB hle
    rw [procItems_true_zero hbr] at h
    cases h
  | case3 t rest level hc hbr fuel2 hsub ih =>
    intro out h fuelB hle
    rw [procItems_true_sub_none hbr hsub] at h
    cases h
  | case4 t rest level hc hbr fuel2 sub hsub hrest ih1 ih2 =>
    intro out h fuelB hle
    rw [procItems_true_rest_none hbr hsub hrest] at h
    cases h
  | case5 t rest level hc hbr fuel2 sub hsub tail hrest ih1 ih2 =>
    intro out h fuelB hle
    rw [procItems_true_some hbr hsub hrest] at h
    obtain rfl := Option.some.inj h
    cases fuelB with
    | zero => omega
    | succ g =>
      have hg : fuel2 ≤ g := Nat.le_of_succ_le_succ hle
      exact procItems_true_some hbr (ih1 sub hsub g hg)
        (ih2 tail hrest (Nat.succ g) (Nat.succ_le_succ hg))
  | case6 fuel t rest level hc hbr hrest ih =>
    intro out h fuelB hle
    rw [procItems_false_rest_none hbr hrest] at h
    cases h
  | case7 fuel t rest level hc hbr tail hrest ih =>
    intro out h fuelB hle
    rw [procItems_false_some hbr hrest] at h
    obtain rfl := Option.some.inj h
    exact procItems_false_some hbr (ih tail hrest fuelB hle)

theorem procItems_child_rows (res : List Task) (cfg : SortConfig) :
    ∀ (fuel : Nat) (L : List Task) (level : Nat) (out : List RenderTask),
      procItems res cfg fuel L level = some out →
      ∀ (p : Task) (d : Nat), RenderTask.mk p d true ∈ out → p.isExpanded = true →
      ∀ u ∈ childrenOf res p.id, RenderTask.mk u (d + 1) (hasChildrenB res u) ∈ out := by
  intro fuel L level
  induction fuel, L, level using procItems.induct res cfg with
  | case1 fuel level =>
    intro out h p d hp hexp u hu
    simp only [procItems] at h
    obtain rfl := Option.some.inj h
    cases hp
  | case2 t rest level hc hbr =>
    intro out h p d hp hexp u hu
    rw [procItems_true_zero hbr] at h
    cases h
  | case3 t rest level hc hbr fuel2 hsub ih =>
    intro out h p d hp hexp u hu
    rw [procItems_true_sub_none hbr hsub] at h
    cases h
  | case4 t rest level hc hbr fuel2 sub hsub hrest ih1 ih2 =>
    intro out h p d hp hexp u hu
    rw [procItems_true_rest_none hbr hsub hrest] at h
    cases h
  | case5 t rest level hc hbr fuel2 sub hsub tail hrest ih1 ih2 =>
    intro out h p d hp hexp u hu
    rw [procItems_true_some hbr hsub hrest] at h
    obtain rfl := Option.some.inj h
    rcases List.mem_cons.mp hp with h1 | h2
    · rw [RenderTask.mk.injEq] at h1
      obtain ⟨rfl, rfl, h1c⟩ := h1
      have hu2 : u ∈ sortTasks cfg (childrenOf res p.id) := mem_sortTasks.mpr hu
      exact List.mem_cons_of_mem _
        (List.mem_append_left _ (procItems_emits res cfg _ _ _ _ u hsub hu2))
    · rcases List.mem_append.mp h2 with h3 | h4
      · exact List.mem_cons_of_mem _
          (List.mem_append_left _ (ih1 sub hsub p d h3 hexp u hu))
      · exact List.mem_cons_of_mem _
          (List.mem_append_right _ (ih2 tail hrest p d h4 hexp u hu))
  | case6 fuel t rest level hc hbr hrest ih =>
    intro out h p d hp hexp u hu
    rw [procItems_false_rest_none hbr hrest] at h
    cases h
  | case7 fuel t rest level hc hbr tail hrest ih =>
    intro out h p d hp hexp u hu
    rw [procItems_false_some hbr hrest] at h
    obtain rfl := Option.some.inj h
    rcases List.mem_cons.mp hp with h1 | h2
    · rw [RenderTask.mk.injEq] at h1
      obtain ⟨rfl, rfl, h1c⟩ := h1
      have hcontra : (hasChildrenB res p && p.isExpanded) = true := by
        rw [← h1c, hexp]
        rfl
      exact absurd hcontra hbr
    · exact List.mem_cons_of_mem _ (ih tail hrest p d h2 hexp u hu)

theorem procItems_pair (res : List Task) (cfg : SortConfig) :
    ∀ (fuel : Nat) (L : List Task) (level : Nat) (out : List RenderTask),
      procItems res cfg fuel L level = some out →
      ∀ (u v : Task), [u, v].Sublist L →
      [RenderTask.mk u level (hasChildrenB res u),
       RenderTask.mk v level (hasChildrenB res v)].Sublist out := by
  intro fuel L level
  induction fuel, L, level using procItems.induct res cfg with
  | case1 fuel level =>
    intro out h u v hpair
    cases hpair
  | case2 t rest level hc hbr =>
    intro out h u v hpair
    rw [procItems_true_zero hbr] at h
    cases h
  | case3 t rest level hc hbr fuel2 hsub ih =>
    intro out h u v hpair
    rw [procItems_true_sub_none hbr hsub] at h
    cases h
  | case4 t rest level hc hbr fuel2 sub hsub hrest ih1 ih2 =>
    intro out h u v hpair
    rw [procItems_true_rest_none hbr hsub hrest] at h
    cases h
  | case5 t rest level hc hbr fuel2 sub hsub tail hrest ih1 ih2 =>
    intro out h u v hpair
    rw [procItems_true_some hbr hsub hrest] at h
    obtain rfl := Option.some.inj h
    cases hpair with
    | cons _ h2 =>
      exact ((ih2 tail hrest u v h2).trans (List.sublist_append_right sub tail)).cons _
    | cons₂ _ h2 =>
      have hv : RenderTask.mk v level (hasChildrenB res v) ∈ tail :=
        procItems_emits res cfg _ _ _ _ v hrest (List.singleton_sublist.mp h2)
      exact ((List.singleton_sublist.mpr
        (List.mem_append_right sub hv))).cons₂ _
  | case6 fuel t rest level hc hbr hrest ih =>
    intro out h u v hpair
    rw [procItems_false_rest_none hbr hrest] at h
    cases h
  | case7 fuel t rest level hc hbr tail hrest ih =>
    intro out h u v hpair
    rw [procItems_false_some hbr hrest] at h
    obtain rfl := Option.some.inj h
    cases hpair with
    | cons _ h2 => exact (ih tail hrest u v h2).cons _
    | cons₂ _ h2 =>
      exact (List.singleton_sublist.mpr
        (procItems_emits res cfg _ _ _ _ v hrest (List.singleton_sublist.mp h2))).cons₂ _

theorem procItems_pair_under_parent (res : List Task) (cfg : SortConfig) :
    ∀ (fuel : Nat) (L : List Task) (level : Nat) (out : List RenderTask),
      procItems res cfg fuel L level = some out →
      ∀ (p : Task) (d : Nat), RenderTask.mk p d true ∈ out → p.isExpanded = true →
      ∀ (u v : Task), [u, v].Sublist (sortTasks cfg (childrenOf res p.id)) →
      [RenderTask.mk u (d + 1) (hasChildrenB res u),
       RenderTask.mk v (d + 1) (hasChildrenB res v)].Sublist out := by
  intro fuel L level
  induction fuel, L, level using procItems.induct res cfg with
  | case1 fuel level =>
    intro out h p d hp hexp u v hpair
    simp only [procItems] at h
    obtain rfl := Option.some.inj h
    cases hp
  | case2 t rest level hc hbr =>
    intro out h p d hp hexp u v hpair
    rw [procItems_true_zero hbr] at h
    cases h
  | case3 t rest level hc hbr fuel2 hsub ih =>
    intro out h p d hp hexp u v hpair
    rw [procItems_true_sub_none hbr hsub] at h
    cases h
  | case4 t rest level hc hbr fuel2 sub hsub hrest ih1 ih2 =>
    intro out h p d hp hexp u v hpair
    rw [procItems_true_rest_none hbr hsub hrest] at h
    cases h
  | case5 t rest level hc hbr fuel2 sub hsub tail hrest ih1 ih2 =>
    intro out h p d hp hexp u v hpair
    rw [procItems_true_some hbr hsub hrest] at h
    obtain rfl := Option.some.inj h
    rcases List.mem_cons.mp hp with h1 | h2
    · rw [RenderTask.mk.injEq] at h1
      obtain ⟨rfl, rfl, h1c⟩ := h1
      exact (((procItems_pair res cfg _ _ _ _ hsub u v hpair).trans
        (List.sublist_append_left sub tail))).cons _
    · rcases List.mem_append.mp h2 with h3 | h4
      · exact ((ih1 sub hsub p d h3 hexp u v hpair).trans
          (List.sublist_append_left sub tail)).cons _
      · exact ((ih2 tail hrest p d h4 hexp u v hpair).trans
          (List.sublist_append_right sub tail)).cons _
  | case6 fuel t rest level hc hbr hrest ih =>
    intro out h p d hp hexp u v hpair
    rw [procItems_false_rest_none hbr hrest] at h
    cases h
  | case7 fuel t rest level hc hbr tail hrest ih =>
    intro out h p d hp hexp u v hpair
    rw [procItems_false_some hbr hrest] at h
    obtain rfl := Option.some.inj h
    rcases List.mem_cons.mp hp with h1 | h2
    · rw [RenderTask.mk.injEq] at h1
      obtain ⟨rfl, rfl, h1c⟩ := h1
      have hcontra : (hasChildrenB res p && p.isExpanded) = true := by
        rw [← h1c, hexp]
        rfl
      exact absurd hcontra hbr
    · exact (ih tail hrest p d h2 hexp u v hpair).cons _

/-! ### Membership characterisations -/

theorem mem_childrenOf {res : List Task} {k : Int} {t : Task} :
    t ∈ childrenOf res k ↔ t ∈ res ∧ t.parentId = some k ∧ k ≠ 0 := by
  unfold childrenOf
  rw [List.mem_filter]
  cases hp : t.parentId with
  | none => simp [optTruthy, hp]
  | some p =>
    simp only [optTruthy, hp, Bool.and_eq_true, bne_iff_ne, ne_eq, beq_iff_eq,
      Option.some.injEq]
    constructor
    · rintro ⟨h1, h2, rfl⟩
      exact ⟨h1, rfl, h2⟩
    · rintro ⟨h1, rfl, h2⟩
      exact ⟨h1, h2, rfl⟩

theorem mem_rootsOf {res : List Task} {t : Task} :
    t ∈ rootsOf res ↔ t ∈ res ∧ isRootB res t = true := by
  unfold rootsOf
  exact List.mem_filter

theorem isRootB_iff {res : List Task} {t : Task} :
    isRootB res t = true ↔
      (t.parentId = none ∨ t.parentId = some 0 ∨ ∀ u ∈ res, t.parentId ≠ some u.id) := by
  unfold isRootB
  cases hp : t.parentId with
  | none => simp [optTruthy]
  | some p =>
    have hc : ((res.map Task.id).contains p = true) ↔ p ∈ res.map Task.id := List.elem_iff
    simp only [optTruthy, Option.getD_some, Bool.or_eq_true, Bool.not_eq_true',
      bne_eq_false_iff_eq, Bool.not_eq_true, Option.some.injEq, reduceCtorEq, false_or,
      ne_eq]
    rw [← Bool.not_eq_true ((res.map Task.id).contains p), Bool.not_eq_true]
    constructor
    · rintro (rfl | h)
      · exact Or.inl rfl
      · refine Or.inr ?_
        intro u hu he
        have : p ∈ res.map Task.id := List.mem_map.mpr ⟨u, hu, he.symm⟩
        rw [← hc] at this
        rw [this] at h
        cases h
    · rintro (rfl | h)
      · exact Or.inl rfl
      · refine Or.inr ?_
        by_contra hco
        have : p ∈ res.map Task.id := by
          rw [← hc]
          exact Bool.of_not_eq_false hco
        obtain ⟨u, hu, hup⟩ := List.mem_map.mp this
        exact h u hu hup.symm

theorem id_inj {res : List Task} (hnd : (res.map Task.id).Nodup) {x y : Task}
    (hx : x ∈ res) (hy : y ∈ res) (h : x.id = y.id) : x = y :=
  List.inj_on_of_nodup_map hnd hx hy h

/-! ### Rooted paths

A rooted path records the stack of tasks the flattening recursion has
descended through (most recent first).  Under unique ids no task can
occur twice on such a path, which bounds the recursion depth and with
it the fuel needed. -/

/-- `Extends res l t`: from the recursion state whose descent stack is
`l`, the loop may process `t` — at the top level (`l = []`) the
processed list consists of roots, below a task `p` it consists of
members of `childrenOf res p.id`. -/
def Extends (res : List Task) (l : List Task) (t : Task) : Prop :=
  match l with
  | [] => t ∈ rootsOf res
  | p :: _ => t ∈ childrenOf res p.id

/-- The descent stacks reachable by the flattening recursion. -/
inductive RPath (res : List Task) : List Task → Prop where
  | nil : RPath res []
  | cons {l : List Task} {t : Task} : RPath res l → Extends res l t → RPath res (t :: l)

theorem extends_mem {res l : List Task} {t : Task} (h : Extends res l t) : t ∈ res := by
  cases l with
  | nil => exact (mem_rootsOf.mp h).1
  | cons p l2 => exact (mem_childrenOf.mp h).1

theorem rpath_inv {res : List Task} (hnd : (res.map Task.id).Nodup) :
    ∀ {l : List Task}, RPath res l →
      (∀ x ∈ l, x ∈ res) ∧ ((l.map Task.id).Nodup ∧
      ((∀ t : Task, Extends res l t → t ∉ l) ∧
      (∀ x ∈ l, ∀ y ∈ res, y.id ≠ 0 → x.parentId = some y.id → y ∈ l ∧ y ≠ x))) := by
  intro l h
  induction h with
  | nil =>
    refine ⟨?_, ?_, ?_, ?_⟩
    · intro x hx
      cases hx
    · exact List.nodup_nil
    · intro t _ ht
      cases ht
    · intro x hx
      cases hx
  | @cons l0 t hp hext ih =>
    obtain ⟨mem0, nd0, fresh0, par0⟩ := ih
    have htres : t ∈ res := extends_mem hext
    have hnotin : t ∉ l0 := fresh0 t hext
    refine ⟨?_, ?_, ?_, ?_⟩
    · intro x hx
      rcases List.mem_cons.mp hx with h1 | h2
      · exact h1 ▸ htres
      · exact mem0 x h2
    · rw [List.map_cons, List.nodup_cons]
      refine ⟨?_, nd0⟩
      intro hmem
      obtain ⟨x, hx, hxid⟩ := List.mem_map.mp hmem
      have hxt : x = t := id_inj hnd (mem0 x hx) htres hxid
      exact hnotin (hxt ▸ hx)
    · intro u hu
      obtain ⟨hures, hupar, htid0⟩ := mem_childrenOf.mp hu
      intro humem
      rcases List.mem_cons.mp humem with h1 | humem2
      · -- the new child u would be t itself, so t.parentId = some t.id
        subst h1
        cases l0 with
        | nil =>
          rcases isRootB_iff.mp (mem_rootsOf.mp hext).2 with h1 | h1 | h1
          · rw [h1] at hupar
            cases hupar
          · rw [h1] at hupar
            exact htid0 (Option.some.inj hupar).symm
          · exact h1 u htres hupar
        | cons p l1 =>
          have h1 : u.parentId = some p.id := (mem_childrenOf.mp hext).2.1
          have hpid : p.id = u.id := by
            rw [h1] at hupar
            exact Option.some.inj hupar
          have hpu : p = u := id_inj hnd (mem0 p (List.mem_cons_self p l1)) htres hpid
          apply hnotin
          rw [← hpu]
          exact List.mem_cons_self p l1
      · -- u already on the stack below t
        have := par0 u humem2 t htres htid0 hupar
        exact hnotin this.1
    · intro x hx y hy hy0 hpar
      rcases List.mem_cons.mp hx with h1 | hx2
      · subst h1
        cases l0 with
        | nil =>
          rcases isRootB_iff.mp (mem_rootsOf.mp hext).2 with h1 | h1 | h1
          · rw [h1] at hpar
            cases hpar
          · rw [h1] at hpar
            exact absurd (Option.some.inj hpar).symm hy0
          · exact absurd hpar (h1 y hy)
        | cons p l1 =>
          have hppar : x.parentId = some p.id := (mem_childrenOf.mp hext).2.1
          have hyid : y.id = p.id := by
            rw [hppar] at hpar
            exact (Option.some.inj hpar).symm
          have hpres : p ∈ res := mem0 p (List.mem_cons_self p l1)
          have hyp2 : y = p := id_inj hnd hy hpres hyid
          refine ⟨?_, ?_⟩
          · rw [hyp2]
            exact List.mem_cons_of_mem _ (List.mem_cons_self p l1)
          · intro hyx
            apply hnotin
            rw [← hyx, hyp2]
            exact List.mem_cons_self p l1
      · obtain ⟨hyin, hyne⟩ := par0 x hx2 y hy hy0 hpar
        exact ⟨List.mem_cons_of_mem _ hyin, hyne⟩

theorem rpath_length_le {res : List Task} (hnd : (res.map Task.id).Nodup)
    {l : List Task} (h : RPath res l) : l.length ≤ res.length := by
  obtain ⟨mem0, nd0, _, _⟩ := rpath_inv hnd h
  have hsub : (l.map Task.id) ⊆ (res.map Task.id) := by
    intro a ha
    obtain ⟨x, hx, rfl⟩ := List.mem_map.mp ha
    exact List.mem_map.mpr ⟨x, mem0 x hx, rfl⟩
  have := (nd0.subperm hsub).length_le
  simpa using this

/-! ### Fuel sufficiency: the flattening terminates under unique ids -/

theorem procItems_isSome (res : List Task) (cfg : SortConfig)
    (hnd : (res.map Task.id).Nodup) :
    ∀ (fuel : Nat) (l L : List Task) (level : Nat),
      RPath res l → (∀ t ∈ L, Extends res l t) →
      res.length + 1 ≤ fuel + l.length →
      (procItems res cfg fuel L level).isSome := by
  intro fuel
  induction fuel using Nat.strong_induction_on with
  | _ fuel ihf =>
    intro l L level hl hL hfuel
    induction L with
    | nil => simp [procItems]
    | cons t rest ihL =>
      have hext : Extends res l t := hL t (List.mem_cons_self t rest)
      have hrest : (procItems res cfg fuel rest level).isSome :=
        ihL (fun u hu => hL u (List.mem_cons_of_mem t hu))
      obtain ⟨tail, htail⟩ := Option.isSome_iff_exists.mp hrest
      by_cases hbr : (hasChildrenB res t && t.isExpanded) = true
      · have hlen : l.length ≤ res.length := rpath_length_le hnd hl
        have hfuel1 : 1 ≤ fuel := by omega
        obtain ⟨fuel2, rfl⟩ : ∃ f2, fuel = f2 + 1 := ⟨fuel - 1, by omega⟩
        have hchild :
            (procItems res cfg fuel2 (sortTasks cfg (childrenOf res t.id)) (level + 1)).isSome := by
          apply ihf fuel2 (by omega) (t :: l) _ (level + 1) (RPath.cons hl hext)
          · intro u hu
            show u ∈ childrenOf res t.id
            exact mem_sortTasks.mp hu
          · simp only [List.length_cons]
            omega
        obtain ⟨sub, hsub⟩ := Option.isSome_iff_exists.mp hchild
        rw [procItems_true_some hbr hsub htail]
        rfl
      · rw [procItems_false_some hbr htail]
        rfl

/-- Termination of the whole view-model computation: for every task
collection with unique ids (after filtering), any fuel of at least
`tasks.length + 1` makes `processedTasks` return a result. -/
theorem processedTasks_isSome (tasks : List Task) (fl : Filters) (cfg : SortConfig)
    (hnd : ((filterTasks fl tasks).map Task.id).Nodup)
    (fuel : Nat) (hfuel : tasks.length + 1 ≤ fuel) :
    (processedTasks tasks fl cfg fuel).isSome := by
  unfold processedTasks processLevel
  have hres : (filterTasks fl tasks).length ≤ tasks.length := by
    unfold filterTasks
    cases fl.type with
    | none =>
      cases fl.owner with
      | none =>
        cases fl.status with
        | none => exact Nat.le_refl _
        | some st => exact List.length_filter_le _ _
      | some ow =>
        cases fl.status with
        | none => exact List.length_filter_le _ _
        | some st => exact le_trans (List.length_filter_le _ _) (List.length_filter_le _ _)
    | some ty =>
      cases fl.owner with
      | none =>
        cases fl.status with
        | none => exact List.length_filter_le _ _
        | some st => exact le_trans (List.length_filter_le _ _) (List.length_filter_le _ _)
      | some ow =>
        cases fl.status with
        | none => exact le_trans (List.length_filter_le _ _) (List.length_filter_le _ _)
        | some st =>
          exact le_trans (le_trans (List.length_filter_le _ _) (List.length_filter_le _ _))
            (List.length_filter_le _ _)
  apply procItems_isSome _ _ hnd _ [] _ 0 RPath.nil
  · intro t ht
    show t ∈ rootsOf (filterTasks fl tasks)
    exact mem_sortTasks.mp ht
  · simp only [List.length_nil]
    omega

/-! ### Visibility: which tasks reach the output, and at which depth -/

/-- `Visible res t d`: the flattening's root-directed descent reaches
task `t` at depth `d` — either `t` is a root (depth 0), or `t` is a
registered child of a visible, expanded parent. -/
inductive Visible (res : List Task) : Task → Nat → Prop where
  | root {t : Task} : t ∈ rootsOf res → Visible res t 0
  | child {p t : Task} {d : Nat} : Visible res p d → p.isExpanded = true →
      t ∈ childrenOf res p.id → Visible res t (d + 1)

theorem visible_mem {res : List Task} {t : Task} {d : Nat}
    (h : Visible res t d) : t ∈ res := by
  cases h with
  | root hr => exact (mem_rootsOf.mp hr).1
  | child hp hexp hch => exact (mem_childrenOf.mp hch).1

theorem hasChildrenB_of_child {res : List Task} {p t : Task}
    (h : t ∈ childrenOf res p.id) : hasChildrenB res p = true := by
  unfold hasChildrenB
  cases hc : childrenOf res p.id with
  | nil => rw [hc] at h; cases h
  | cons a l => simp

theorem extends_visible {res : List Task} :
    ∀ {l : List Task}, RPath res l → (∀ x ∈ l, x.isExpanded = true) →
      ∀ {t : Task}, Extends res l t → Visible res t l.length := by
  intro l h
  induction h with
  | nil =>
    intro _ t hext
    exact Visible.root hext
  | @cons l0 p hp hext0 ih =>
    intro hexp t hext
    have hpvis : Visible res p l0.length :=
      ih (fun x hx => hexp x (List.mem_cons_of_mem p hx)) hext0
    exact Visible.child hpvis (hexp p (List.mem_cons_self p l0)) hext

theorem procItems_visible (res : List Task) (cfg : SortConfig) :
    ∀ (fuel : Nat) (L : List Task) (level : Nat),
      ∀ (l : List Task) (out : List RenderTask),
        RPath res l → (∀ x ∈ l, x.isExpanded = true) →
        (∀ t ∈ L, Extends res l t) → level = l.length →
        procItems res cfg fuel L level = some out →
        ∀ r ∈ out, Visible res r.task r.level ∧ r.hasChildren = hasChildrenB res r.task := by
  intro fuel L level
  induction fuel, L, level using procItems.induct res cfg with
  | case1 fuel level =>
    intro l out _ _ _ _ h r hr
    simp only [procItems] at h
    obtain rfl := Option.some.inj h
    cases hr
  | case2 t rest level hc hbr =>
    intro l out _ _ _ _ h r hr
    rw [procItems_true_zero hbr] at h
    cases h
  | case3 t rest level hc hbr fuel2 hsub ih =>
    intro l out _ _ _ _ h r hr
    rw [procItems_true_sub_none hbr hsub] at h
    cases h
  | case4 t rest level hc hbr fuel2 sub hsub hrest ih1 ih2 =>
    intro l out _ _ _ _ h r hr
    rw [procItems_true_rest_none hbr hsub hrest] at h
    cases h
  | case5 t rest level hc hbr fuel2 sub hsub tail hrest ih1 ih2 =>
    intro l out hl hexp hL hlev h r hr
    rw [procItems_true_some hbr hsub hrest] at h
    obtain rfl := Option.some.inj h
    have hext : Extends res l t := hL t (List.mem_cons_self t rest)
    have htexp : t.isExpanded = true := (Bool.and_eq_true _ _ |>.mp hbr).2
    rcases List.mem_cons.mp hr with h1 | h2
    · subst h1
      exact ⟨hlev ▸ extends_visible hl hexp hext, rfl⟩
    · rcases List.mem_append.mp h2 with h3 | h4
      · refine ih1 (t :: l) sub (RPath.cons hl hext) ?_ ?_ ?_ hsub r h3
        · intro x hx
          rcases List.mem_cons.mp hx with rfl | hx2
          · exact htexp
          · exact hexp x hx2
        · intro u hu
          show u ∈ childrenOf res t.id
          exact mem_sortTasks.mp hu
        · simp [hlev]
      · exact ih2 l tail hl hexp (fun u hu => hL u (List.mem_cons_of_mem t hu)) hlev hrest r h4
  | case6 fuel t rest level hc hbr hrest ih =>
    intro l out _ _ _ _ h r hr
    rw [procItems_false_rest_none hbr hrest] at h
    cases h
  | case7 fuel t rest level hc hbr tail hrest ih =>
    intro l out hl hexp hL hlev h r hr
    rw [procItems_false_some hbr hrest] at h
    obtain rfl := Option.some.inj h
    have hext : Extends res l t := hL t (List.mem_cons_self t rest)
    rcases List.mem_cons.mp hr with h1 | h2
    · subst h1
      exact ⟨hlev ▸ extends_visible hl hexp hext, rfl⟩
    · exact ih l tail hl hexp (fun u hu => hL u (List.mem_cons_of_mem t hu)) hlev hrest r h2

/-- Forward direction at the top level: every row of the view-model
output is a visible task at its emitted depth, and its `hasChildren`
flag is the children-map test. -/
theorem processedTasks_visible {tasks : List Task} {fl : Filters} {cfg : SortConfig}
    {fuel : Nat} {out : List RenderTask}
    (hrun : processedTasks tasks fl cfg fuel = some out) :
    ∀ r ∈ out, Visible (filterTasks fl tasks) r.task r.level ∧
      r.hasChildren = hasChildrenB (filterTasks fl tasks) r.task := by
  unfold processedTasks processLevel at hrun
  intro r hr
  refine procItems_visible (filterTasks fl tasks) cfg fuel _ 0 [] out RPath.nil ?_ ?_ rfl hrun r hr
  · intro x hx
    cases hx
  · intro t ht
    show t ∈ rootsOf (filterTasks fl tasks)
    exact mem_sortTasks.mp ht

/-- Backward direction: every visible task appears in the output at its
visibility depth. -/
theorem visible_row {tasks : List Task} {fl : Filters} {cfg : SortConfig}
    {fuel : Nat} {out : List RenderTask}
    (hrun : processedTasks tasks fl cfg fuel = some out) :
    ∀ {t : Task} {d : Nat}, Visible (filterTasks fl tasks) t d →
      RenderTask.mk t d (hasChildrenB (filterTasks fl tasks) t) ∈ out := by
  unfold processedTasks processLevel at hrun
  intro t d h
  induction h with
  | @root t hr =>
    exact procItems_emits _ cfg _ _ _ _ t hrun (mem_sortTasks.mpr hr)
  | @child p t d hp hexp hch ih =>
    have hcp : hasChildrenB (filterTasks fl tasks) p = true := hasChildrenB_of_child hch
    rw [hcp] at ih
    exact procItems_child_rows _ cfg _ _ _ _ hrun p d ih hexp t hch

/-- Under unique ids the visibility depth of a task is unique (parent
links are functional). -/
theorem visible_depth_unique {res : List Task} (hnd : (res.map Task.id).Nodup) :
    ∀ {t : Task} {d : Nat}, Visible res t d → ∀ {d2 : Nat}, Visible res t d2 → d = d2 := by
  intro t d h
  induction h with
  | @root t hr =>
    intro d2 h2
    cases h2 with
    | root _ => rfl
    | @child q t d2 hq hqexp hch =>
      obtain ⟨htres, hpar, hq0⟩ := mem_childrenOf.mp hch
      rcases isRootB_iff.mp (mem_rootsOf.mp hr).2 with h1 | h1 | h1
      · rw [h1] at hpar
        cases hpar
      · rw [h1] at hpar
        exact absurd (Option.some.inj hpar).symm hq0
      · exact absurd hpar (h1 q (visible_mem hq))
  | @child p t d hp hpexp hch ih =>
    intro d2 h2
    cases h2 with
    | root hr =>
      obtain ⟨htres, hpar, hp0⟩ := mem_childrenOf.mp hch
      rcases isRootB_iff.mp (mem_rootsOf.mp hr).2 with h1 | h1 | h1
      · rw [h1] at hpar
        cases hpar
      · rw [h1] at hpar
        exact absurd (Option.some.inj hpar).symm hp0
      · exact absurd hpar (h1 p (visible_mem hp))
    | @child q t d3 hq hqexp hch2 =>
      obtain ⟨_, hpar, hp0⟩ := mem_childrenOf.mp hch
      obtain ⟨_, hpar2, hq0⟩ := mem_childrenOf.mp hch2
      have hqid : p.id = q.id := by
        rw [hpar] at hpar2
        exact Option.some.inj hpar2
      have hpq : p = q := id_inj hnd (visible_mem hp) (visible_mem hq) hqid
      rw [Nat.succ_inj]
      exact ih (hpq ▸ hq)

/-! ### Descendants via the children map -/

/-- `Desc res p u`: `u` is a strict descendant of `p` through the
children map built over `res` (decomposable at the last step). -/
inductive Desc (res : List Task) : Task → Task → Prop where
  | step {p u : Task} : u ∈ childrenOf res p.id → Desc res p u
  | trans {p x u : Task} : Desc res p x → u ∈ childrenOf res x.id → Desc res p u

/-- `DescE res p u`: `u` is a strict descendant of `p` and every task
on the chain from `p` (inclusive) to `u` (exclusive) is expanded. -/
inductive DescE (res : List Task) : Task → Task → Prop where
  | step {p u : Task} : p.isExpanded = true → u ∈ childrenOf res p.id → DescE res p u
  | trans {p x u : Task} : DescE res p x → x.isExpanded = true →
      u ∈ childrenOf res x.id → DescE res p u

theorem desc_mem {res : List Task} {p u : Task} (h : Desc res p u) : u ∈ res := by
  cases h with
  | step hch => exact (mem_childrenOf.mp hch).1
  | trans _ hch => exact (mem_childrenOf.mp hch).1

theorem descE_expanded {res : List Task} {p u : Task} (h : DescE res p u) :
    p.isExpanded = true := by
  induction h with
  | step hexp _ => exact hexp
  | trans _ _ _ ih => exact ih

/-- An expanded descent below a visible task yields a visible task. -/
theorem descE_visible {res : List Task} {p u : Task} (h : DescE res p u) :
    ∀ {d : Nat}, Visible res p d → ∃ d2, Visible res u d2 := by
  induction h with
  | step hexp hch =>
    intro d hp
    exact ⟨d + 1, Visible.child hp hexp hch⟩
  | trans hx hexp hch ih =>
    intro d hp
    obtain ⟨dx, hxvis⟩ := ih hp
    exact ⟨dx + 1, Visible.child hxvis hexp hch⟩

/-- Under unique ids, the only way a descendant of `p` can be visible
is that the whole chain from `p` down to it is expanded. -/
theorem visible_desc_descE {res : List Task} (hnd : (res.map Task.id).Nodup) :
    ∀ {u : Task} {d : Nat}, Visible res u d →
      ∀ {p : Task}, p ∈ res → Desc res p u → DescE res p u := by
  intro u d h
  induction h with
  | @root u hr =>
    intro p hpres hdesc
    exfalso
    have hpar : ∃ x, x ∈ res ∧ u.parentId = some x.id ∧ x.id ≠ 0 := by
      cases hdesc with
      | step hch =>
        obtain ⟨_, h1, h2⟩ := mem_childrenOf.mp hch
        exact ⟨p, hpres, h1, h2⟩
      | trans hdx hch =>
        rename_i x
        obtain ⟨_, h1, h2⟩ := mem_childrenOf.mp hch
        exact ⟨x, desc_mem hdx, h1, h2⟩
    obtain ⟨x, hxres, hpar, hx0⟩ := hpar
    rcases isRootB_iff.mp (mem_rootsOf.mp hr).2 with h1 | h1 | h1
    · rw [h1] at hpar
      cases hpar
    · rw [h1] at hpar
      exact hx0 (Option.some.inj hpar).symm
    · exact h1 x hxres hpar
  | @child q u d hq hqexp hch ih =>
    intro p hpres hdesc
    obtain ⟨_, hpar, hq0⟩ := mem_childrenOf.mp hch
    cases hdesc with
    | step hch2 =>
      obtain ⟨_, hpar2, hp0⟩ := mem_childrenOf.mp hch2
      have : p.id = q.id := by
        rw [hpar] at hpar2
        exact (Option.some.inj hpar2).symm
      have hpq : p = q := id_inj hnd hpres (visible_mem hq) this
      subst hpq
      exact DescE.step hqexp hch
    | trans hdx hch2 =>
      rename_i x
      obtain ⟨_, hpar2, hx0⟩ := mem_childrenOf.mp hch2
      have : x.id = q.id := by
        rw [hpar] at hpar2
        exact (Option.some.inj hpar2).symm
      have hxq : x = q := id_inj hnd (desc_mem hdx) (visible_mem hq) this
      subst hxq
      exact DescE.trans (ih hpres hdx) hqexp hch

/-! ### Cascade delete: descendant ids and the collect walk -/

/-- `DescId tasks k x`: id `x` belongs to a strict descendant of id `k`
through the exact-equality child walk of `deleteTask` (`t.parentId ===
taskId`), decomposable at the first step. -/
inductive DescId (tasks : List Task) : Int → Int → Prop where
  | step {k : Int} {t : Task} : t ∈ tasks → t.parentId = some k → DescId tasks k t.id
  | trans {k x : Int} {t : Task} : t ∈ tasks → t.parentId = some k →
      DescId tasks t.id x → DescId tasks k x

theorem descId_trans {tasks : List Task} {a b c : Int}
    (h1 : DescId tasks a b) (h2 : DescId tasks b c) : DescId tasks a c := by
  induction h1 with
  | step hmem hpar => exact DescId.trans hmem hpar h2
  | trans hmem hpar _ ih => exact DescId.trans hmem hpar (ih h2)

theorem descId_first_step {tasks : List Task} {k x : Int} :
    DescId tasks k x ↔
      ∃ c ∈ tasks.filter (fun t => t.parentId == some k),
        x = c.id ∨ DescId tasks c.id x := by
  constructor
  · intro h
    cases h with
    | @step k t hmem hpar =>
      refine ⟨t, ?_, Or.inl rfl⟩
      rw [List.mem_filter]
      exact ⟨hmem, by simp [hpar]⟩
    | @trans k x t hmem hpar hd =>
      refine ⟨t, ?_, Or.inr hd⟩
      rw [List.mem_filter]
      exact ⟨hmem, by simp [hpar]⟩
  · rintro ⟨c, hc, hx | hx⟩
    · rw [List.mem_filter] at hc
      have hpar : c.parentId = some k := by
        have := hc.2
        simpa using this
      exact hx ▸ DescId.step hc.1 hpar
    · rw [List.mem_filter] at hc
      have hpar : c.parentId = some k := by
        have := hc.2
        simpa using this
      exact DescId.trans hc.1 hpar hx

/-- What `collect` adds to the accumulated set: the target id together
with all its `DescId`-descendants. -/
theorem collect_spec (tasks : List Task) :
    ∀ (fuel : Nat) (taskId : Int) (acc s : List Int),
      collect tasks fuel taskId acc = some s →
      ∀ x : Int, x ∈ s ↔ (x ∈ acc ∨ x = taskId ∨ DescId tasks taskId x) := by
  intro fuel
  induction fuel with
  | zero =>
    intro taskId acc s h
    simp [collect] at h
  | succ f ihf =>
    intro taskId acc s h
    have hkids :
        ∀ (cs : List Task), (∀ c ∈ cs, c ∈ tasks) →
        ∀ (acc0 s0 : List Int), collectKids tasks f cs acc0 = some s0 →
        ∀ x : Int, x ∈ s0 ↔ (x ∈ acc0 ∨ ∃ c ∈ cs, x = c.id ∨ DescId tasks c.id x) := by
      intro cs
      induction cs with
      | nil =>
        intro _ acc0 s0 h0 x
        simp only [collectKids] at h0
        obtain rfl := Option.some.inj h0
        simp
      | cons c cs2 ihcs =>
        intro hmem acc0 s0 h0 x
        cases hcol : collect tasks f c.id acc0 with
        | none => simp [collectKids, hcol] at h0
        | some acc2 =>
          simp only [collectKids, hcol] at h0
          have h1 := ihf c.id acc0 acc2 hcol
          have h2 := ihcs (fun u hu => hmem u (List.mem_cons_of_mem c hu)) acc2 s0 h0
          rw [h2, h1]
          constructor
          · rintro ((hx | hx) | ⟨u, hu, hx⟩)
            · exact Or.inl hx
            · exact Or.inr ⟨c, List.mem_cons_self c cs2, hx⟩
            · exact Or.inr ⟨u, List.mem_cons_of_mem c hu, hx⟩
          · rintro (hx | ⟨u, hu, hx⟩)
            · exact Or.inl (Or.inl hx)
            · rcases List.mem_cons.mp hu with rfl | hu2
              · exact Or.inl (Or.inr hx)
              · exact Or.inr ⟨u, hu2, hx⟩
    simp only [collect] at h
    have hadd : ∀ x : Int,
        x ∈ (if acc.contains taskId = true then acc else acc ++ [taskId]) ↔
          (x ∈ acc ∨ x = taskId) := by
      intro x
      by_cases hct : acc.contains taskId = true
      · simp only [hct, if_true]
        constructor
        · exact Or.inl
        · rintro (hx | rfl)
          · exact hx
          · exact List.elem_iff.mp hct
      · rw [if_neg hct]
        simp [List.mem_append]
    have hsub : ∀ c ∈ tasks.filter (fun t => t.parentId == some taskId), c ∈ tasks :=
      fun c hc => (List.mem_filter.mp hc).1
    intro x
    rw [hkids _ hsub _ _ h x, hadd x, descId_first_step]
    constructor
    · rintro ((hx | hx) | hex)
      · exact Or.inl hx
      · exact Or.inr (Or.inl hx)
      · exact Or.inr (Or.inr hex)
    · rintro (hx | hx | hex)
      · exact Or.inl (Or.inl hx)
      · exact Or.inl (Or.inr hx)
      · exact Or.inr hex

/-! ### Acyclicity makes the collect walk terminate -/

/-- An edge of the delete walk: some task has `parentId === a` and id
`b`. -/
def edgeTo (tasks : List Task) (a b : Int) : Prop :=
  ∃ t ∈ tasks, t.parentId = some a ∧ t.id = b

/-- The id stacks reachable by the `collect` recursion starting from
`start` (most recent first). -/
inductive IdPath (tasks : List Task) (start : Int) : List Int → Prop where
  | base : IdPath tasks start [start]
  | step {k c : Int} {rest : List Int} : IdPath tasks start (k :: rest) →
      edgeTo tasks k c → IdPath tasks start (c :: rest.cons k)

theorem idpath_desc {tasks : List Task} {start : Int} :
    ∀ {l : List Int}, IdPath tasks start l →
      ∀ {k : Int} {rest : List Int}, l = k :: rest →
      ∀ x ∈ l, x = k ∨ DescId tasks x k := by
  intro l h
  induction h with
  | base =>
    intro k rest he x hx
    cases he
    rcases List.mem_singleton.mp hx with rfl
    exact Or.inl rfl
  | @step k0 c rest0 hp he ih =>
    intro k rest he2 x hx
    injection he2 with hck hrest
    subst hck
    subst hrest
    have hkc : DescId tasks k0 c := by
      obtain ⟨t, hmem, hpar, hid⟩ := he
      exact hid ▸ DescId.step hmem hpar
    rcases List.mem_cons.mp hx with rfl | hx2
    · exact Or.inl rfl
    · rcases ih rfl x hx2 with rfl | hd
      · exact Or.inr hkc
      · exact Or.inr (descId_trans hd hkc)

theorem idpath_nodup {tasks : List Task} {start : Int}
    (hacyc : ∀ k : Int, ¬DescId tasks k k) :
    ∀ {l : List Int}, IdPath tasks start l → l.Nodup := by
  intro l h
  induction h with
  | base => simp
  | @step k c rest hp he ih =>
    rw [List.nodup_cons]
    refine ⟨?_, ih⟩
    intro hc
    have hkc : DescId tasks k c := by
      obtain ⟨t, hmem, hpar, hid⟩ := he
      exact hid ▸ DescId.step hmem hpar
    rcases idpath_desc hp rfl c hc with rfl | hd
    · exact hacyc c hkc
    · exact hacyc c (descId_trans hd hkc)

theorem idpath_mem {tasks : List Task} {start : Int} :
    ∀ {l : List Int}, IdPath tasks start l →
      ∀ x ∈ l, x = start ∨ ∃ t ∈ tasks, t.id = x := by
  intro l h
  induction h with
  | base =>
    intro x hx
    rcases List.mem_singleton.mp hx with rfl
    exact Or.inl rfl
  | @step k c rest hp he ih =>
    intro x hx
    rcases List.mem_cons.mp hx with rfl | hx2
    · obtain ⟨t, hmem, _, hid⟩ := he
      exact Or.inr ⟨t, hmem, hid⟩
    · exact ih x hx2

theorem idpath_length_le {tasks : List Task} {start : Int}
    (hacyc : ∀ k : Int, ¬DescId tasks k k) {l : List Int}
    (h : IdPath tasks start l) : l.length ≤ tasks.length + 1 := by
  have hnd := idpath_nodup hacyc h
  have hsub : l ⊆ start :: tasks.map Task.id := by
    intro x hx
    rcases idpath_mem h x hx with rfl | ⟨t, hmem, hid⟩
    · exact List.mem_cons_self _ _
    · exact List.mem_cons_of_mem _ (List.mem_map.mpr ⟨t, hmem, hid⟩)
  have := (hnd.subperm hsub).length_le
  simpa using this

theorem collect_isSome (tasks : List Task) (start : Int)
    (hacyc : ∀ k : Int, ¬DescId tasks k k) :
    ∀ (fuel : Nat) (k : Int) (path : List Int) (acc : List Int),
      IdPath tasks start (k :: path) →
      tasks.length + 2 ≤ fuel + (k :: path).length →
      (collect tasks fuel k acc).isSome := by
  intro fuel
  induction fuel using Nat.strong_induction_on with
  | _ fuel ihf =>
    intro k path acc hpath hfuel
    have hlen : (k :: path).length ≤ tasks.length + 1 := idpath_length_le hacyc hpath
    have hfuel1 : 1 ≤ fuel := by omega
    obtain ⟨f, rfl⟩ : ∃ f, fuel = f + 1 := ⟨fuel - 1, by omega⟩
    have hkids :
        ∀ (cs : List Task), (∀ c ∈ cs, c ∈ tasks ∧ c.parentId = some k) →
        ∀ (acc0 : List Int), (collectKids tasks f cs acc0).isSome := by
      intro cs
      induction cs with
      | nil =>
        intro _ acc0
        simp [collectKids]
      | cons c cs2 ihcs =>
        intro hmem acc0
        have hc := hmem c (List.mem_cons_self c cs2)
        have hedge : edgeTo tasks k c.id := ⟨c, hc.1, hc.2, rfl⟩
        have hcol : (collect tasks f c.id acc0).isSome := by
          apply ihf f (by omega) c.id (k :: path) acc0 (IdPath.step hpath hedge)
          simp only [List.length_cons] at hfuel ⊢
          omega
        obtain ⟨acc2, hacc2⟩ := Option.isSome_iff_exists.mp hcol
        have := ihcs (fun u hu => hmem u (List.mem_cons_of_mem c hu)) acc2
        obtain ⟨s0, hs0⟩ := Option.isSome_iff_exists.mp this
        simp [collectKids, hacc2, hs0]
    simp only [collect]
    apply hkids
    intro c hc
    rw [List.mem_filter] at hc
    refine ⟨hc.1, ?_⟩
    have := hc.2
    simpa using this

/-! ### JSON snapshot round trip -/

theorem typeOfString_typeString (ty : TaskType) : typeOfString (typeString ty) = some ty := by
  cases ty <;> rfl

theorem statusOfString_statusString (st : TaskStatus) :
    statusOfString (statusString st) = some st := by
  cases st <;> rfl

theorem mapM_num_loop (l : List Int) : ∀ acc : List Int,
    List.mapM.loop (fun d => match d with | Json.num n => some n | _ => none)
      (l.map Json.num) acc = some (acc.reverse ++ l) := by
  induction l with
  | nil =>
    intro acc
    simp [List.mapM.loop]
  | cons a l2 ih =>
    intro acc
    simp [List.mapM.loop, ih]

theorem mapM_num_map (l : List Int) :
    (l.map Json.num).mapM
      (fun d => match d with | Json.num n => some n | _ => none) = some l := by
  have := mapM_num_loop l []
  simpa [List.mapM] using this

theorem decodeTask_encodeTask (t : Task) : decodeTask (encodeTask t) = some t := by
  obtain ⟨i, nm, st, en, ty, sta, ow, dp, orda, pid, ex⟩ := t
  cases pid <;> cases ty <;> cases sta <;>
    simp [encodeTask, decodeTask, jGet, typeOfString, statusOfString, typeString,
      statusString, mapM_num_loop]

theorem mapM_decode_loop (l : List Task) : ∀ acc : List Task,
    List.mapM.loop decodeTask (l.map encodeTask) acc = some (acc.reverse ++ l) := by
  induction l with
  | nil =>
    intro acc
    simp [List.mapM.loop]
  | cons t l2 ih =>
    intro acc
    simp [List.mapM.loop, decodeTask_encodeTask, ih]

theorem mapM_decodeTask_map (l : List Task) :
    (l.map encodeTask).mapM decodeTask = some l := by
  have := mapM_decode_loop l []
  simpa [List.mapM] using this

/-! ## Claim theorems -/

/-- C8: for each store mutation (`addTask`, `updateTask`, `deleteTask`,
`replaceAllTasks`), when the backend request fails the error is caught
locally: the in-memory task collection is exactly the one before the
call and no subscriber notification fires (the request itself was
issued). -/
theorem store_mutations_atomic_on_error (e : String) (task : Task)
    (cur ts : List Task) (id : Int) :
    runAddTask (Except.error e) task cur =
      StoreEff.mk cur [BackendReq.saveTask task] [] ∧
    runUpdateTask (Except.error e) task cur =
      StoreEff.mk cur [BackendReq.saveTask task] [] ∧
    runDeleteTask (Except.error e) id cur =
      StoreEff.mk cur [BackendReq.deleteTask id] [] ∧
    runReplaceAllTasks (Except.error e) ts cur =
      StoreEff.mk cur [BackendReq.syncTasks ts] [] :=
  ⟨rfl, rfl, rfl, rfl⟩

/-- C9: when the initial fetch of `store.subscribe` returns an empty
task list, subscribers are notified with the 10-task default plan
`INITIAL_TASKS` (not the empty collection) and the defaults are synced
back to the backend; no outcome of the initial fetch ever surfaces an
empty collection to subscribers. -/
theorem subscribe_empty_fetch_defaults :
    runSubscribeInit (Except.ok []) =
      StoreEff.mk INITIAL_TASKS
        [BackendReq.getTasks, BackendReq.syncTasks INITIAL_TASKS] [INITIAL_TASKS] ∧
    INITIAL_TASKS.length = 10 ∧
    ∀ outcome : Except String (List Task), [] ∉ (runSubscribeInit outcome).notified := by
  refine ⟨rfl, rfl, ?_⟩
  intro outcome
  cases outcome with
  | error e =>
    intro hmem
    rcases List.mem_singleton.mp hmem with he
    cases he
  | ok ts =>
    by_cases hne : ts.length > 0
    · simp only [runSubscribeInit, hne, if_true]
      intro hmem
      rcases List.mem_singleton.mp hmem with rfl
      simp at hne
    · simp only [runSubscribeInit, hne, if_false]
      intro hmem
      rcases List.mem_singleton.mp hmem with he
      cases he

/-- C10: `updateTask` with an id matching no task in the current
collection leaves the collection entirely unchanged and fires no
notification, although the backend upsert request is still issued. -/
theorem updateTask_unknown_id_noop (task : Task) (cur : List Task)
    (h : ∀ t ∈ cur, t.id ≠ task.id) :
    runUpdateTask (Except.ok ()) task cur =
      StoreEff.mk cur [BackendReq.saveTask task] [] := by
  have hfind : cur.findIdx? (fun t => t.id == task.id) = none := by
    rw [List.findIdx?_eq_none_iff]
    intro t ht
    simp [h t ht]
  simp [runUpdateTask, hfind]

/-- Witness for `updateTask_unknown_id_noop` at a concrete input. -/
theorem updateTask_unknown_id_noop_witness :
    (∀ t ∈ [Task.mk 1 "a" "2025-01-01" "2025-01-02" TaskType.prep TaskStatus.todo "o" [] 0 none true],
      t.id ≠ (Task.mk 7 "b" "2025-01-01" "2025-01-02" TaskType.prep TaskStatus.todo "o" [] 1 none true).id) ∧
    runUpdateTask (Except.ok ())
      (Task.mk 7 "b" "2025-01-01" "2025-01-02" TaskType.prep TaskStatus.todo "o" [] 1 none true)
      [Task.mk 1 "a" "2025-01-01" "2025-01-02" TaskType.prep TaskStatus.todo "o" [] 0 none true] =
      StoreEff.mk
        [Task.mk 1 "a" "2025-01-01" "2025-01-02" TaskType.prep TaskStatus.todo "o" [] 0 none true]
        [BackendReq.saveTask
          (Task.mk 7 "b" "2025-01-01" "2025-01-02" TaskType.prep TaskStatus.todo "o" [] 1 none true)] [] :=
  ⟨by decide, updateTask_unknown_id_noop _ _ (by decide)⟩

/-- C7 counterexample: exporting the empty collection and re-importing
the export does not restore it — the import guard rejects empty arrays
(`json.length > 0`), so the round trip fails exactly where the claim
quantifies over every collection. -/
theorem snapshot_roundtrip_empty_fails :
    handleImportJSON (handleExportJSON ([] : List Task)) = none := rfl

/-- C7 (amended): for every non-empty collection whose first task has a
truthy id (nonzero) and name (non-empty), re-importing the JSON export
restores the identical task collection. -/
theorem snapshot_roundtrip (tasks : List Task) (hne : tasks ≠ [])
    (hid : (tasks.head hne).id ≠ 0) (hname : (tasks.head hne).name ≠ "") :
    handleImportJSON (handleExportJSON tasks) = some tasks := by
  obtain ⟨t0, rest, rfl⟩ := List.exists_cons_of_ne_nil hne
  simp only [List.head_cons] at hid hname
  have hgid : jGet (encodeTask t0) "id" = some (Json.num t0.id) := by
    cases hp : t0.parentId <;> simp [encodeTask, jGet]
  have hgname : jGet (encodeTask t0) "name" = some (Json.str t0.name) := by
    cases hp : t0.parentId <;> simp [encodeTask, jGet]
  have htid : jTruthy (jGet (encodeTask t0) "id") = true := by
    rw [hgid]
    simp [jTruthy, hid]
  have htname : jTruthy (jGet (encodeTask t0) "name") = true := by
    rw [hgname]
    simp [jTruthy, hname]
  simp only [handleExportJSON, handleImportJSON, List.map_cons, htid, htname,
    Bool.and_self, if_true]
  have := mapM_decodeTask_map (t0 :: rest)
  simpa using this

/-- Witness for `snapshot_roundtrip` at a concrete input. -/
theorem snapshot_roundtrip_witness :
    (([Task.mk 1 "a" "2025-01-01" "2025-01-02" TaskType.prep TaskStatus.todo "o" [] 0 none true] : List Task) ≠ [] ∧
     (1 : Int) ≠ 0 ∧ ("a" : String) ≠ "") ∧
    handleImportJSON (handleExportJSON
      [Task.mk 1 "a" "2025-01-01" "2025-01-02" TaskType.prep TaskStatus.todo "o" [] 0 none true]) =
      some [Task.mk 1 "a" "2025-01-01" "2025-01-02" TaskType.prep TaskStatus.todo "o" [] 0 none true] :=
  ⟨⟨by decide, by decide, by decide⟩,
   snapshot_roundtrip _ (by decide) (by decide) (by decide)⟩

/-! ### Concrete inputs for counterexamples and witnesses -/

/-- A task with the given id, order, parent and expansion flag (the
remaining fields are arbitrary fixed values). -/
def sampleTask (i : Int) (ord : Int) (pid : Option Int) (exp : Bool) : Task :=
  Task.mk i "t" "2025-03-17" "2025-03-23" TaskType.prep TaskStatus.todo "o" [] ord pid exp

/-- All three filters set to `'all'`. -/
def noFilters : Filters := Filters.mk none none none

/-- The default sort configuration: manual order, ascending. -/
def orderAsc : SortConfig := SortConfig.mk SortKey.order SortDir.asc

/-! ### Evaluation helpers for the fuel-based recursions -/

theorem collect_succ_eq (tasks : List Task) (f : Nat) (taskId : Int) (acc : List Int) :
    collect tasks (Nat.succ f) taskId acc =
      collectKids tasks f (tasks.filter (fun t => t.parentId == some taskId))
        (if acc.contains taskId then acc else acc ++ [taskId]) := by
  simp [collect]

theorem collectKids_nil_eq (tasks : List Task) (f : Nat) (acc : List Int) :
    collectKids tasks f [] acc = some acc := by
  simp [collectKids]

theorem collectKids_cons_some {tasks : List Task} {fuel : Nat} {c : Task}
    {cs : List Task} {acc acc2 s : List Int}
    (hcol : collect tasks fuel c.id acc = some acc2)
    (hrest : collectKids tasks fuel cs acc2 = some s) :
    collectKids tasks fuel (c :: cs) acc = some s := by
  simp [collectKids, hcol, hrest]

/-- C6: deleting a task cascades to exactly the task plus all of its
transitive descendants collected by walking `parentId` links (strict
equality), and afterwards no remaining task refers to a deleted id as
its `parentId` — provided the child walk has no parent cycle to recurse
into forever (its recursion carries no visited-guard). -/
theorem deleteTask_cascade (tasks : List Task) (start : Int)
    (hacyc : ∀ k : Int, ¬DescId tasks k k)
    (fuel : Nat) (hfuel : tasks.length + 1 ≤ fuel) :
    ∃ s : List Int, deleteCascadeIds tasks fuel start = some s ∧
      (∀ x : Int, x ∈ s ↔ (x = start ∨ DescId tasks start x)) ∧
      (∀ t ∈ applyCascadeDelete tasks s, ∀ dId ∈ s, t.parentId ≠ some dId) := by
  have hsome : (collect tasks fuel start []).isSome := by
    apply collect_isSome tasks start hacyc fuel start [] [] IdPath.base
    simp only [List.length_cons, List.length_nil]
    omega
  obtain ⟨s, hs⟩ := Option.isSome_iff_exists.mp hsome
  refine ⟨s, hs, ?_, ?_⟩
  · intro x
    rw [collect_spec tasks fuel start [] s hs x]
    simp
  · intro t ht dId hd hpar
    unfold applyCascadeDelete at ht
    rw [List.mem_filter] at ht
    have hnotin : t.id ∉ s := by
      have hfalse := ht.2
      simp only [Bool.not_eq_true'] at hfalse
      intro hmem
      have hcon : s.contains t.id = true := List.elem_iff.mpr hmem
      rw [hcon] at hfalse
      cases hfalse
    have hstep : DescId tasks dId t.id := DescId.step ht.1 hpar
    rcases (collect_spec tasks fuel start [] s hs dId).mp hd with h1 | h1 | h1
    · cases h1
    · exact hnotin ((collect_spec tasks fuel start [] s hs t.id).mpr
        (Or.inr (Or.inr (h1 ▸ hstep))))
    · exact hnotin ((collect_spec tasks fuel start [] s hs t.id).mpr
        (Or.inr (Or.inr (descId_trans h1 hstep))))

/-- Witness for `deleteTask_cascade` at a concrete two-task input
(parent id 1 with child id 2). -/
theorem deleteTask_cascade_witness :
    (∀ k : Int, ¬DescId [sampleTask 1 0 none true, sampleTask 2 1 (some 1) true] k k) ∧
    ([sampleTask 1 0 none true, sampleTask 2 1 (some 1) true].length + 1 ≤ 3) ∧
    ∃ s : List Int,
      deleteCascadeIds [sampleTask 1 0 none true, sampleTask 2 1 (some 1) true] 3 1 = some s ∧
      (∀ x : Int, x ∈ s ↔ (x = 1 ∨
        DescId [sampleTask 1 0 none true, sampleTask 2 1 (some 1) true] 1 x)) ∧
      (∀ t ∈ applyCascadeDelete [sampleTask 1 0 none true, sampleTask 2 1 (some 1) true] s,
        ∀ dId ∈ s, t.parentId ≠ some dId) := by
  have hDesc : ∀ a b : Int,
      DescId [sampleTask 1 0 none true, sampleTask 2 1 (some 1) true] a b →
        a = 1 ∧ b = 2 := by
    intro a b h
    induction h with
    | step hmem hpar =>
      rcases List.mem_cons.mp hmem with rfl | hmem2
      · simp [sampleTask] at hpar
      · rcases List.mem_cons.mp hmem2 with rfl | hmem3
        · simp only [sampleTask, Option.some.injEq] at hpar
          exact ⟨hpar.symm, rfl⟩
        · cases hmem3
    | trans hmem hpar hd ih =>
      rcases List.mem_cons.mp hmem with rfl | hmem2
      · simp [sampleTask] at hpar
      · rcases List.mem_cons.mp hmem2 with rfl | hmem3
        · have h2 := ih.1
          simp [sampleTask] at h2
        · cases hmem3
  have hacyc : ∀ k : Int, ¬DescId [sampleTask 1 0 none true, sampleTask 2 1 (some 1) true] k k := by
    intro k h
    have := hDesc k k h
    omega
  exact ⟨hacyc, by decide,
    deleteTask_cascade [sampleTask 1 0 none true, sampleTask 2 1 (some 1) true] 1 hacyc 3
      (by decide)⟩

/-- Evaluation helper: a list of tasks none of which descends (no
children or collapsed) flattens to its rows at the given level, with
any fuel. -/
theorem procItems_all_false (res : List Task) (cfg : SortConfig) :
    ∀ (L : List Task) (level : Nat),
      (∀ t ∈ L, ¬(hasChildrenB res t && t.isExpanded) = true) →
      ∀ fuel : Nat, procItems res cfg fuel L level =
        some (L.map (fun t => RenderTask.mk t level (hasChildrenB res t))) := by
  intro L
  induction L with
  | nil =>
    intro level _ fuel
    exact procItems.eq_1 res cfg fuel level
  | cons t rest ih =>
    intro level hbr fuel
    have h1 := ih level (fun u hu => hbr u (List.mem_cons_of_mem t hu)) fuel
    exact procItems_false_some (hbr t (List.mem_cons_self t rest)) h1

/-- C1 counterexample: a two-task parent cycle among the surviving
filtered tasks does NOT make the recursive flattening repeat without
terminating — neither task is a root, the cycle is unreachable from
the roots, and the flattening returns (the empty view-model) already
with recursion-depth budget 1. -/
theorem cycle_flatten_terminates :
    processedTasks [sampleTask 1 0 (some 2) true, sampleTask 2 1 (some 1) true]
      noFilters orderAsc 1 = some [] :=
  procItems.eq_1 (filterTasks noFilters
    [sampleTask 1 0 (some 2) true, sampleTask 2 1 (some 1) true]) orderAsc 1 0

/-- C1 (amended): for every task collection whose filtered ids are
unique, the view-model flattening terminates — with any recursion
depth budget of at least `tasks.length + 1` it returns a result, and
the result no longer depends on the budget (this covers cyclic
collections too: parent cycles are unreachable from the roots). -/
theorem processedTasks_terminates (tasks : List Task) (fl : Filters) (cfg : SortConfig)
    (hnd : ((filterTasks fl tasks).map Task.id).Nodup)
    (fuel : Nat) (hfuel : tasks.length + 1 ≤ fuel) :
    (processedTasks tasks fl cfg fuel).isSome ∧
    processedTasks tasks fl cfg fuel = processedTasks tasks fl cfg (tasks.length + 1) := by
  obtain ⟨r, hr⟩ := Option.isSome_iff_exists.mp
    (processedTasks_isSome tasks fl cfg hnd (tasks.length + 1) (Nat.le_refl _))
  have h2 : processedTasks tasks fl cfg fuel = some r := by
    unfold processedTasks processLevel at hr ⊢
    exact procItems_mono _ _ _ _ _ _ hr fuel hfuel
  rw [h2, hr]
  exact ⟨rfl, rfl⟩

/-- Witness for `processedTasks_terminates` at a concrete input. -/
theorem processedTasks_terminates_witness :
    (((filterTasks noFilters [sampleTask 1 0 none true, sampleTask 2 1 (some 1) true]).map
        Task.id).Nodup ∧
     [sampleTask 1 0 none true, sampleTask 2 1 (some 1) true].length + 1 ≤ 3) ∧
    ((processedTasks [sampleTask 1 0 none true, sampleTask 2 1 (some 1) true]
        noFilters orderAsc 3).isSome ∧
     processedTasks [sampleTask 1 0 none true, sampleTask 2 1 (some 1) true]
        noFilters orderAsc 3 =
     processedTasks [sampleTask 1 0 none true, sampleTask 2 1 (some 1) true]
        noFilters orderAsc
        ([sampleTask 1 0 none true, sampleTask 2 1 (some 1) true].length + 1)) :=
  ⟨⟨by decide, by decide⟩,
   processedTasks_terminates _ _ _ (by decide) 3 (by decide)⟩

/-- C2 counterexample: with a task of id 0 present, a task whose
`parentId` is 0 — i.e. whose `parentId` DOES match an id present in
the filtered collection — is still flattened at depth 0 (JavaScript
treats the number 0 as falsy in `!t.parentId`), so the claim's "if and
only if" fails. -/
theorem root_iff_zero_id_cex :
    processedTasks [sampleTask 0 0 none true, sampleTask 1 1 (some 0) true]
      noFilters orderAsc 3 =
      some [RenderTask.mk (sampleTask 0 0 none true) 0 false,
            RenderTask.mk (sampleTask 1 1 (some 0) true) 0 false] ∧
    ¬ ((sampleTask 1 1 (some 0) true).parentId = none ∨
       ∀ u ∈ filterTasks noFilters [sampleTask 0 0 none true, sampleTask 1 1 (some 0) true],
         (sampleTask 1 1 (some 0) true).parentId ≠ some u.id) := by
  constructor
  · exact procItems_all_false
      (filterTasks noFilters [sampleTask 0 0 none true, sampleTask 1 1 (some 0) true])
      orderAsc _ 0 (by decide) 3
  · decide

/-- C2 (amended): a task of the filtered collection is emitted at
depth 0 if and only if its `parentId` is absent, or is 0 (falsy, hence
treated as absent), or does not match the id of any task present in
the filtered collection. -/
theorem processedTasks_root_iff (tasks : List Task) (fl : Filters) (cfg : SortConfig)
    (fuel : Nat) (out : List RenderTask)
    (hrun : processedTasks tasks fl cfg fuel = some out)
    (t : Task) (ht : t ∈ filterTasks fl tasks) :
    (∃ hc : Bool, RenderTask.mk t 0 hc ∈ out) ↔
      (t.parentId = none ∨ t.parentId = some 0 ∨
       ∀ u ∈ filterTasks fl tasks, t.parentId ≠ some u.id) := by
  unfold processedTasks processLevel at hrun
  have hrows := procItems_rows_at_level (filterTasks fl tasks) cfg fuel _ 0 out hrun
  rw [← isRootB_iff]
  constructor
  · rintro ⟨hc, hmem⟩
    have h1 : RenderTask.mk t 0 hc ∈ out.filter (fun r => r.level == 0) :=
      List.mem_filter.mpr ⟨hmem, by simp⟩
    rw [hrows] at h1
    obtain ⟨u, hu, hue⟩ := List.mem_map.mp h1
    rw [RenderTask.mk.injEq] at hue
    obtain ⟨rfl, -, -⟩ := hue
    exact (mem_rootsOf.mp (mem_sortTasks.mp hu)).2
  · intro hroot
    refine ⟨hasChildrenB (filterTasks fl tasks) t, ?_⟩
    exact procItems_emits _ cfg _ _ _ _ t hrun
      (mem_sortTasks.mpr (mem_rootsOf.mpr ⟨ht, hroot⟩))

/-- Witness for `processedTasks_root_iff` at a concrete input (a task
with a dangling parent reference, flattened at depth 0). -/
theorem processedTasks_root_iff_witness :
    (processedTasks [sampleTask 1 0 none true, sampleTask 2 1 (some 9) true]
        noFilters orderAsc 3 =
      some [RenderTask.mk (sampleTask 1 0 none true) 0 false,
            RenderTask.mk (sampleTask 2 1 (some 9) true) 0 false] ∧
     sampleTask 2 1 (some 9) true ∈
       filterTasks noFilters [sampleTask 1 0 none true, sampleTask 2 1 (some 9) true]) ∧
    ((∃ hc : Bool, RenderTask.mk (sampleTask 2 1 (some 9) true) 0 hc ∈
        [RenderTask.mk (sampleTask 1 0 none true) 0 false,
         RenderTask.mk (sampleTask 2 1 (some 9) true) 0 false]) ↔
      ((sampleTask 2 1 (some 9) true).parentId = none ∨
       (sampleTask 2 1 (some 9) true).parentId = some 0 ∨
       ∀ u ∈ filterTasks noFilters [sampleTask 1 0 none true, sampleTask 2 1 (some 9) true],
         (sampleTask 2 1 (some 9) true).parentId ≠ some u.id)) := by
  have hrun : processedTasks [sampleTask 1 0 none true, sampleTask 2 1 (some 9) true]
      noFilters orderAsc 3 =
      some [RenderTask.mk (sampleTask 1 0 none true) 0 false,
            RenderTask.mk (sampleTask 2 1 (some 9) true) 0 false] :=
    procItems_all_false
      (filterTasks noFilters [sampleTask 1 0 none true, sampleTask 2 1 (some 9) true])
      orderAsc _ 0 (by decide) 3
  exact ⟨⟨hrun, by decide⟩,
    processedTasks_root_iff _ _ _ _ _ hrun _ (by decide)⟩

/-- C4 counterexample: a parent row with id 0 and a child row whose
`parentId` is 0 are both emitted at depth 0 (the child is treated as a
root because `0` is falsy), so child.depth = parent.depth + 1 fails
for this parent/child pair of rows. -/
theorem parent_child_depth_zero_id_cex :
    processedTasks [sampleTask 0 5 none true, sampleTask 1 6 (some 0) true]
      noFilters orderAsc 3 =
      some [RenderTask.mk (sampleTask 0 5 none true) 0 false,
            RenderTask.mk (sampleTask 1 6 (some 0) true) 0 false] ∧
    (sampleTask 1 6 (some 0) true).parentId = some (sampleTask 0 5 none true).id ∧
    ¬ (∀ rp ∈ [RenderTask.mk (sampleTask 0 5 none true) 0 false,
               RenderTask.mk (sampleTask 1 6 (some 0) true) 0 false],
       ∀ rc ∈ [RenderTask.mk (sampleTask 0 5 none true) 0 false,
               RenderTask.mk (sampleTask 1 6 (some 0) true) 0 false],
         rc.task.parentId = some rp.task.id → rc.level = rp.level + 1) := by
  refine ⟨?_, rfl, by decide⟩
  exact procItems_all_false
    (filterTasks noFilters [sampleTask 0 5 none true, sampleTask 1 6 (some 0) true])
    orderAsc _ 0 (by decide) 3

/-- C4 (amended): under unique filtered ids, for every parent/child
pair of rows in the view-model output whose link is a truthy parent id
(nonzero), the child row's depth is the parent row's depth plus 1. -/
theorem processedTasks_depth_parent_child (tasks : List Task) (fl : Filters)
    (cfg : SortConfig) (fuel : Nat) (out : List RenderTask)
    (hnd : ((filterTasks fl tasks).map Task.id).Nodup)
    (hrun : processedTasks tasks fl cfg fuel = some out) :
    ∀ rp ∈ out, ∀ rc ∈ out,
      rc.task.parentId = some rp.task.id → rp.task.id ≠ 0 →
      rc.level = rp.level + 1 := by
  intro rp hrp rc hrc hpar hid0
  obtain ⟨tp, dp, cp⟩ := rp
  obtain ⟨tc, dc, cc⟩ := rc
  simp only at hpar hid0 ⊢
  have hvp := (processedTasks_visible hrun _ hrp).1
  have hvc := (processedTasks_visible hrun _ hrc).1
  simp only at hvp hvc
  cases hvc with
  | root hr =>
    exfalso
    rcases isRootB_iff.mp (mem_rootsOf.mp hr).2 with h1 | h1 | h1
    · rw [h1] at hpar
      cases hpar
    · rw [h1] at hpar
      exact hid0 (Option.some.inj hpar).symm
    · exact h1 tp (visible_mem hvp) hpar
  | child hq hqexp hch2 =>
    rename_i q d3
    obtain ⟨-, hpar2, hq0⟩ := mem_childrenOf.mp hch2
    have hqid : q.id = tp.id := by
      rw [hpar2] at hpar
      exact Option.some.inj hpar
    have hqtp : q = tp := id_inj hnd (visible_mem hq) (visible_mem hvp) hqid
    subst hqtp
    rw [Nat.succ_inj]
    exact (visible_depth_unique hnd hvp hq).symm

/-- Witness for `processedTasks_depth_parent_child` at a concrete
two-task input (expanded parent id 1, child id 2 at depth 1). -/
theorem processedTasks_depth_parent_child_witness :
    ((((filterTasks noFilters [sampleTask 1 0 none true, sampleTask 2 1 (some 1) true]).map
        Task.id).Nodup) ∧
     processedTasks [sampleTask 1 0 none true, sampleTask 2 1 (some 1) true]
        noFilters orderAsc 3 =
      some [RenderTask.mk (sampleTask 1 0 none true) 0 true,
            RenderTask.mk (sampleTask 2 1 (some 1) true) 1 false]) ∧
    (1 : Nat) = 0 + 1 := by
  have hrun : processedTasks [sampleTask 1 0 none true, sampleTask 2 1 (some 1) true]
      noFilters orderAsc 3 =
      some [RenderTask.mk (sampleTask 1 0 none true) 0 true,
            RenderTask.mk (sampleTask 2 1 (some 1) true) 1 false] := by
    have h1 := procItems_all_false
      (filterTasks noFilters [sampleTask 1 0 none true, sampleTask 2 1 (some 1) true])
      orderAsc
      (sortTasks orderAsc (childrenOf
        (filterTasks noFilters [sampleTask 1 0 none true, sampleTask 2 1 (some 1) true])
        (sampleTask 1 0 none true).id)) 1 (by decide) 2
    have h2 := procItems.eq_1
      (filterTasks noFilters [sampleTask 1 0 none true, sampleTask 2 1 (some 1) true])
      orderAsc 3 0
    exact procItems_true_some (by decide) h1 h2
  refine ⟨⟨by decide, hrun⟩, ?_⟩
  exact processedTasks_depth_parent_child _ _ _ _ _ (by decide) hrun
    (RenderTask.mk (sampleTask 1 0 none true) 0 true) (by decide)
    (RenderTask.mk (sampleTask 2 1 (some 1) true) 1 false) (by decide)
    rfl (by decide)

/-- Ties under the `order` key compare as 0 regardless of direction. -/
theorem sortFn_order_tie {cfg : SortConfig} (hkey : cfg.key = SortKey.order)
    {u v : Task} (htie : u.order = v.order) : sortFn cfg u v = 0 := by
  unfold sortFn
  rw [hkey, htie]
  simp only [cmpNum, lt_irrefl, if_false]
  cases cfg.direction <;> simp

/-- C5 counterexample: two tasks at the same tree level with the same
`order` value do NOT necessarily keep their input order: under
different parents their relative position follows the parents'
positions.  Tasks 3 and 4 (both order 5, both at level 1, task 3
before task 4 in the input) come out with task 4 first. -/
theorem order_tie_same_level_cex :
    processedTasks [sampleTask 1 2 none true, sampleTask 2 1 none true,
        sampleTask 3 5 (some 1) true, sampleTask 4 5 (some 2) true]
      noFilters orderAsc 5 =
      some [RenderTask.mk (sampleTask 2 1 none true) 0 true,
            RenderTask.mk (sampleTask 4 5 (some 2) true) 1 false,
            RenderTask.mk (sampleTask 1 2 none true) 0 true,
            RenderTask.mk (sampleTask 3 5 (some 1) true) 1 false] ∧
    (sampleTask 3 5 (some 1) true).order = (sampleTask 4 5 (some 2) true).order ∧
    [sampleTask 3 5 (some 1) true, sampleTask 4 5 (some 2) true].Sublist
      [sampleTask 1 2 none true, sampleTask 2 1 none true,
       sampleTask 3 5 (some 1) true, sampleTask 4 5 (some 2) true] ∧
    ¬ ([RenderTask.mk (sampleTask 3 5 (some 1) true) 1 false,
        RenderTask.mk (sampleTask 4 5 (some 2) true) 1 false].Sublist
       [RenderTask.mk (sampleTask 2 1 none true) 0 true,
        RenderTask.mk (sampleTask 4 5 (some 2) true) 1 false,
        RenderTask.mk (sampleTask 1 2 none true) 0 true,
        RenderTask.mk (sampleTask 3 5 (some 1) true) 1 false]) := by
  refine ⟨?_, rfl, by decide, by decide⟩
  have hres : filterTasks noFilters [sampleTask 1 2 none true, sampleTask 2 1 none true,
      sampleTask 3 5 (some 1) true, sampleTask 4 5 (some 2) true] =
      [sampleTask 1 2 none true, sampleTask 2 1 none true,
       sampleTask 3 5 (some 1) true, sampleTask 4 5 (some 2) true] := rfl
  have h1 := procItems_all_false
    (filterTasks noFilters [sampleTask 1 2 none true, sampleTask 2 1 none true,
      sampleTask 3 5 (some 1) true, sampleTask 4 5 (some 2) true]) orderAsc
    (sortTasks orderAsc (childrenOf
      (filterTasks noFilters [sampleTask 1 2 none true, sampleTask 2 1 none true,
        sampleTask 3 5 (some 1) true, sampleTask 4 5 (some 2) true])
      (sampleTask 2 1 none true).id)) 1 (by decide) 4
  have h2 := procItems.eq_1
    (filterTasks noFilters [sampleTask 1 2 none true, sampleTask 2 1 none true,
      sampleTask 3 5 (some 1) true, sampleTask 4 5 (some 2) true]) orderAsc 5 0
  have h3 := procItems_all_false
    (filterTasks noFilters [sampleTask 1 2 none true, sampleTask 2 1 none true,
      sampleTask 3 5 (some 1) true, sampleTask 4 5 (some 2) true]) orderAsc
    (sortTasks orderAsc (childrenOf
      (filterTasks noFilters [sampleTask 1 2 none true, sampleTask 2 1 none true,
        sampleTask 3 5 (some 1) true, sampleTask 4 5 (some 2) true])
      (sampleTask 1 2 none true).id)) 1 (by decide) 4
  have h4 := procItems_true_some (by decide) h3 h2
  exact procItems_true_some (by decide) h1 h4

/-- C5 (amended): when sorting by the `order` key, two tasks of the
same sibling group (both roots, or both children of the same expanded
emitted parent) that share the same order value keep their relative
order from the underlying collection in the flattened output (the sort
is stable and ties are not broken further). -/
theorem processedTasks_sibling_tie_stable (tasks : List Task) (fl : Filters)
    (cfg : SortConfig) (fuel : Nat) (out : List RenderTask)
    (hkey : cfg.key = SortKey.order)
    (hrun : processedTasks tasks fl cfg fuel = some out)
    (u v : Task) (htie : u.order = v.order) :
    ([u, v].Sublist (rootsOf (filterTasks fl tasks)) →
      [RenderTask.mk u 0 (hasChildrenB (filterTasks fl tasks) u),
       RenderTask.mk v 0 (hasChildrenB (filterTasks fl tasks) v)].Sublist out) ∧
    (∀ (p : Task) (d : Nat), RenderTask.mk p d true ∈ out → p.isExpanded = true →
      [u, v].Sublist (childrenOf (filterTasks fl tasks) p.id) →
      [RenderTask.mk u (d + 1) (hasChildrenB (filterTasks fl tasks) u),
       RenderTask.mk v (d + 1) (hasChildrenB (filterTasks fl tasks) v)].Sublist out) := by
  have hle : sortFn cfg u v ≤ 0 := by
    rw [sortFn_order_tie hkey htie]
  unfold processedTasks processLevel at hrun
  constructor
  · intro hpair
    exact procItems_pair _ cfg _ _ _ _ hrun u v
      (pair_sublist_sortTasks cfg hpair hle)
  · intro p d hp hexp hpair
    exact procItems_pair_under_parent _ cfg _ _ _ _ hrun p d hp hexp u v
      (pair_sublist_sortTasks cfg hpair hle)

/-- Witness for `processedTasks_sibling_tie_stable` at a concrete
input (two root tasks with equal order values). -/
theorem processedTasks_sibling_tie_stable_witness :
    ((orderAsc.key = SortKey.order ∧
      processedTasks [sampleTask 1 7 none true, sampleTask 2 7 none true]
        noFilters orderAsc 3 =
        some [RenderTask.mk (sampleTask 1 7 none true) 0 false,
              RenderTask.mk (sampleTask 2 7 none true) 0 false] ∧
      (sampleTask 1 7 none true).order = (sampleTask 2 7 none true).order) ∧
     [sampleTask 1 7 none true, sampleTask 2 7 none true].Sublist
       (rootsOf (filterTasks noFilters [sampleTask 1 7 none true, sampleTask 2 7 none true]))) ∧
    [RenderTask.mk (sampleTask 1 7 none true) 0
       (hasChildrenB (filterTasks noFilters
         [sampleTask 1 7 none true, sampleTask 2 7 none true]) (sampleTask 1 7 none true)),
     RenderTask.mk (sampleTask 2 7 none true) 0
       (hasChildrenB (filterTasks noFilters
         [sampleTask 1 7 none true, sampleTask 2 7 none true]) (sampleTask 2 7 none true))].Sublist
      [RenderTask.mk (sampleTask 1 7 none true) 0 false,
       RenderTask.mk (sampleTask 2 7 none true) 0 false] := by
  have hrun : processedTasks [sampleTask 1 7 none true, sampleTask 2 7 none true]
      noFilters orderAsc 3 =
      some [RenderTask.mk (sampleTask 1 7 none true) 0 false,
            RenderTask.mk (sampleTask 2 7 none true) 0 false] :=
    procItems_all_false
      (filterTasks noFilters [sampleTask 1 7 none true, sampleTask 2 7 none true])
      orderAsc _ 0 (by decide) 3
  exact ⟨⟨⟨rfl, hrun, rfl⟩, by decide⟩,
    (processedTasks_sibling_tie_stable _ _ _ _ _ rfl hrun
      (sampleTask 1 7 none true) (sampleTask 2 7 none true) rfl).1 (by decide)⟩

/-- C3 counterexample: a collapsed task with id 0 whose "children"
(tasks whose `parentId` equals its id, namely 0) survive filtering
still yields descendant rows: the children are treated as roots
because `0` is falsy in the children-map guard, so they appear in the
output despite `isExpanded = false` on their parent. -/
theorem expansion_gating_zero_id_cex :
    processedTasks [sampleTask 0 3 none false, sampleTask 1 4 (some 0) true]
      noFilters orderAsc 3 =
      some [RenderTask.mk (sampleTask 0 3 none false) 0 false,
            RenderTask.mk (sampleTask 1 4 (some 0) true) 0 false] ∧
    (sampleTask 1 4 (some 0) true).parentId = some (sampleTask 0 3 none false).id ∧
    (sampleTask 0 3 none false).isExpanded = false ∧
    RenderTask.mk (sampleTask 1 4 (some 0) true) 0 false ∈
      [RenderTask.mk (sampleTask 0 3 none false) 0 false,
       RenderTask.mk (sampleTask 1 4 (some 0) true) 0 false] := by
  refine ⟨?_, rfl, rfl, by decide⟩
  exact procItems_all_false
    (filterTasks noFilters [sampleTask 0 3 none false, sampleTask 1 4 (some 0) true])
    orderAsc _ 0 (by decide) 3

/-- C3 (amended): under unique filtered ids, for every row of the
output whose task has registered children (children-map children, i.e.
tasks with that truthy nonzero id as parent): with `isExpanded =
false` none of its descendants' rows appear in the output; with
`isExpanded = true` all of its direct children appear at the next
depth; and a descendant's row appears if and only if the whole chain
of ancestors from this task down to it is expanded. -/
theorem processedTasks_expansion_gating (tasks : List Task) (fl : Filters)
    (cfg : SortConfig) (fuel : Nat) (out : List RenderTask)
    (hnd : ((filterTasks fl tasks).map Task.id).Nodup)
    (hrun : processedTasks tasks fl cfg fuel = some out)
    (p : Task) (d : Nat) (hc : Bool)
    (hrow : RenderTask.mk p d hc ∈ out)
    (_hkids : childrenOf (filterTasks fl tasks) p.id ≠ []) :
    (p.isExpanded = false → ∀ u : Task, Desc (filterTasks fl tasks) p u →
      ∀ (d2 : Nat) (hc2 : Bool), RenderTask.mk u d2 hc2 ∉ out) ∧
    (p.isExpanded = true → ∀ u ∈ childrenOf (filterTasks fl tasks) p.id,
      RenderTask.mk u (d + 1) (hasChildrenB (filterTasks fl tasks) u) ∈ out) ∧
    (∀ u : Task, Desc (filterTasks fl tasks) p u →
      ((∃ (d2 : Nat) (hc2 : Bool), RenderTask.mk u d2 hc2 ∈ out) ↔
        DescE (filterTasks fl tasks) p u)) := by
  have hfv := processedTasks_visible hrun _ hrow
  have hvp : Visible (filterTasks fl tasks) p d := hfv.1
  have hpres : p ∈ filterTasks fl tasks := visible_mem hvp
  refine ⟨?_, ?_, ?_⟩
  · intro hfalse u hdesc d2 hc2 hmem
    have hvu := (processedTasks_visible hrun _ hmem).1
    have hDE := visible_desc_descE hnd hvu hpres hdesc
    rw [descE_expanded hDE] at hfalse
    cases hfalse
  · intro htrue u hu
    have hcB : hasChildrenB (filterTasks fl tasks) p = true := hasChildrenB_of_child hu
    have h3 : hc = true := hfv.2.trans hcB
    rw [h3] at hrow
    unfold processedTasks processLevel at hrun
    exact procItems_child_rows _ cfg _ _ _ _ hrun p d hrow htrue u hu
  · intro u hdesc
    constructor
    · rintro ⟨d2, hc2, hmem⟩
      exact visible_desc_descE hnd (processedTasks_visible hrun _ hmem).1 hpres hdesc
    · intro hDE
      obtain ⟨d2, hvu⟩ := descE_visible hDE hvp
      exact ⟨d2, _, visible_row hrun hvu⟩

/-- Witness for `processedTasks_expansion_gating` at a concrete input
(expanded parent id 1, child id 2 emitted at the next depth). -/
theorem processedTasks_expansion_gating_witness :
    ((((filterTasks noFilters [sampleTask 1 0 none true, sampleTask 2 2 (some 1) true]).map
        Task.id).Nodup ∧
      processedTasks [sampleTask 1 0 none true, sampleTask 2 2 (some 1) true]
        noFilters orderAsc 3 =
        some [RenderTask.mk (sampleTask 1 0 none true) 0 true,
              RenderTask.mk (sampleTask 2 2 (some 1) true) 1 false] ∧
      RenderTask.mk (sampleTask 1 0 none true) 0 true ∈
        [RenderTask.mk (sampleTask 1 0 none true) 0 true,
         RenderTask.mk (sampleTask 2 2 (some 1) true) 1 false] ∧
      childrenOf (filterTasks noFilters
        [sampleTask 1 0 none true, sampleTask 2 2 (some 1) true])
        (sampleTask 1 0 none true).id ≠ [] ∧
      (sampleTask 1 0 none true).isExpanded = true ∧
      sampleTask 2 2 (some 1) true ∈ childrenOf (filterTasks noFilters
        [sampleTask 1 0 none true, sampleTask 2 2 (some 1) true])
        (sampleTask 1 0 none true).id)) ∧
    RenderTask.mk (sampleTask 2 2 (some 1) true) (0 + 1)
      (hasChildrenB (filterTasks noFilters
        [sampleTask 1 0 none true, sampleTask 2 2 (some 1) true])
        (sampleTask 2 2 (some 1) true)) ∈
      [RenderTask.mk (sampleTask 1 0 none true) 0 true,
       RenderTask.mk (sampleTask 2 2 (some 1) true) 1 false] := by
  have hrun : processedTasks [sampleTask 1 0 none true, sampleTask 2 2 (some 1) true]
      noFilters orderAsc 3 =
      some [RenderTask.mk (sampleTask 1 0 none true) 0 true,
            RenderTask.mk (sampleTask 2 2 (some 1) true) 1 false] := by
    have h1 := procItems_all_false
      (filterTasks noFilters [sampleTask 1 0 none true, sampleTask 2 2 (some 1) true])
      orderAsc
      (sortTasks orderAsc (childrenOf
        (filterTasks noFilters [sampleTask 1 0 none true, sampleTask 2 2 (some 1) true])
        (sampleTask 1 0 none true).id)) 1 (by decide) 2
    have h2 := procItems.eq_1
      (filterTasks noFilters [sampleTask 1 0 none true, sampleTask 2 2 (some 1) true])
      orderAsc 3 0
    exact procItems_true_some (by decide) h1 h2
  exact ⟨⟨by decide, hrun, by decide, by decide, rfl, by decide⟩,
    (processedTasks_expansion_gating _ _ _ _ _ (by decide) hrun
      (sampleTask 1 0 none true) 0 true (by decide) (by decide)).2.1 rfl
      (sampleTask 2 2 (some 1) true) (by decide)⟩

end ProjectPlanner